import Mathlib

/-!
Verification model of the dbc-data derive crate (signal.rs, derive.rs,
message.rs).  The crate is a code generator: for every DBC signal it emits
Rust decode/encode statements over a byte slice.  This file embeds the
runtime semantics of the emitted code, one Lean function per generator
function, keeping the source's loop structure, branch structure, masks and
shifts.  Machine integers are modelled as natural-number bit patterns:
a value of the `nwidth`-bit storage type is a `Nat` below `2 ^ nwidth`,
byte values are `Nat` below `256`, left shifts that the source performs in
a fixed-width type are reduced `% 2 ^ width`, the bitwise complement `!m`
of an 8-bit mask is `255 ^^^ m`, and right shifts on a signed storage type
are modelled arithmetically (`rshr`).  `f32` scale/offset arithmetic is
modelled exactly over `ℚ` (the claims proved here never depend on float
rounding).  Shift-amount and `usize` overflows that would panic at
generation time in the source are totalised in the standard way
(truncated `Nat` subtraction, mathematical shifts); comments mark the two
places where this matters.
-/

namespace DbcData

/-- Byte order of a DBC signal (`can_dbc::ByteOrder`). -/
inductive ByteOrder where
  | little
  | big
deriving DecidableEq, Repr

/-- The Rust types the generator can pick for a signal: `bool`,
a signed or unsigned integer of a given bit width, or `f32`. -/
inductive Ty where
  | boolT
  | intT (signed : Bool) (bits : Nat)
  | f32T
deriving DecidableEq, Repr

/-- A DBC signal as seen by `SignalInfo::new`: start bit, bit width,
byte order, signedness, scale factor and offset. -/
structure Sig where
  start : Nat
  width : Nat
  byteOrder : ByteOrder
  signed : Bool
  scale : ℚ
  offset : ℚ
deriving DecidableEq, Repr

/-- Storage width chosen in `SignalInfo::new`: the `match width` on
`1 / 2..=8 / 9..=16 / 17..=32 / _`. -/
def Sig.nwidth (s : Sig) : Nat :=
  if s.width = 1 then 1
  else if 2 ≤ s.width ∧ s.width ≤ 8 then 8
  else if 9 ≤ s.width ∧ s.width ≤ 16 then 16
  else if 17 ≤ s.width ∧ s.width ≤ 32 then 32
  else 64

/-- The unsigned/storage type `utype` of `SignalInfo::new`: `bool` for
1-bit signals, otherwise an `i<nwidth>` or `u<nwidth>` integer type. -/
def Sig.utype (s : Sig) : Ty :=
  if s.width = 1 then Ty.boolT else Ty.intT s.signed s.nwidth

/-- The native type `ntype` of `SignalInfo::new`: `utype` when the scale
factor equals `1.0`, otherwise `f32`. -/
def Sig.ntype (s : Sig) : Ty :=
  if s.scale = 1 then s.utype else Ty.f32T

/-- Mirrors `SignalInfo::is_float`: any signal whose scale factor is not
`1.0` is treated as floating point. -/
def Sig.is_float (s : Sig) : Bool :=
  decide (s.scale ≠ 1)

/-- True when the signal's byte order is little-endian. -/
def Sig.isLittle (s : Sig) : Bool :=
  match s.byteOrder with
  | ByteOrder.little => true
  | ByteOrder.big => false

/-- First byte index touched by the signal, `start / 8`. -/
def Sig.low (s : Sig) : Nat := s.start / 8

/-- Bit offset of the start bit inside its byte, `start % 8`. -/
def Sig.left (s : Sig) : Nat := s.start % 8

/-- Last byte index of a little-endian signal, `(start + width - 1) / 8`. -/
def Sig.high (s : Sig) : Nat := (s.start + s.width - 1) / 8

/-- Bits used in the last byte boundary, `(start + width) % 8`. -/
def Sig.rightBits (s : Sig) : Nat := (s.start + s.width) % 8

/-- Number of bytes after the first touched by a little-endian signal. -/
def Sig.byteCount (s : Sig) : Nat := s.high - s.low

/-- Interpretation of an `N`-bit pattern as a two's-complement integer. -/
def toInt (N v : Nat) : Int :=
  if v < 2 ^ (N - 1) then (v : Int) else (v : Int) - 2 ^ N

/-- Right shift as performed by the `N`-bit storage type: logical for an
unsigned type, arithmetic (replicating the sign bit) for a signed one. -/
def rshr (sg : Bool) (N v k : Nat) : Nat :=
  if sg = true ∧ 2 ^ (N - 1) ≤ v then (v >>> k) ||| (2 ^ N - 2 ^ (N - k))
  else v >>> k

/-- The sign-extension block appended by `extract_unaligned_le` and
`extract_unaligned_be`: with `mask = 1 << (width - 1)`, if the assembled
value has that bit set, OR in the complement of `mask | (mask - 1)`. -/
def signExtend (N w v : Nat) : Nat :=
  if v &&& (1 <<< (w - 1)) ≠ 0 then
    v ||| ((2 ^ N - 1) ^^^ ((1 <<< (w - 1)) ||| ((1 <<< (w - 1)) - 1)))
  else v

/-- Sign extension exactly when the source appends it: for signed signals
narrower than their storage type. -/
def Sig.sextIf (s : Sig) (v : Nat) : Nat :=
  if s.signed = true ∧ s.width < s.nwidth then signExtend s.nwidth s.width v
  else v

/-- First-byte statement of `extract_unaligned_le`: seed from
`pdu[low]`, then shift/mask according to `left` and `count`. The mask
constant `(1 << width) - 1` is emitted at the storage type `utype`; for
a signed storage type `iN` with `width = N - 1` that constant is
`iN::MIN - 1`, an arithmetic overflow the compiler rejects, so the
generated decoder only builds when `Sig.uleMaskBuilds` holds. This
model evaluates the mask at mathematical precision (`2 ^ width - 1`),
which agrees with the emitted constant in every case that builds. -/
def Sig.uleFirst (s : Sig) (pdu : List Nat) : Nat :=
  let v := pdu.getD s.low 0
  if s.left ≠ 0 then
    if s.byteCount = 0 then
      (rshr s.signed s.nwidth v s.left) &&& ((1 <<< s.width) - 1)
    else rshr s.signed s.nwidth v s.left
  else v &&& ((1 <<< s.width) - 1)

/-- Generation-time constraint of `extract_unaligned_le`: the branches
`left == 0` and `left != 0 && count == 0` emit the first-byte mask
constant `(1 << width) - 1` at the storage type `utype`. When the
storage type is signed (`iN`) and `width = nwidth - 1`, that constant
is `iN::MIN - 1` — a compile-time arithmetic-overflow error in the
generated code (a debug build would panic). The proposition holds
exactly when no such overflowing constant is emitted, i.e. when the
generated unaligned little-endian decoder builds. -/
def Sig.uleMaskBuilds (s : Sig) : Prop :=
  ¬(s.signed = true ∧ s.width + 1 = s.nwidth ∧ (s.left = 0 ∨ s.byteCount = 0))

instance (s : Sig) : Decidable s.uleMaskBuilds := by
  unfold Sig.uleMaskBuilds
  infer_instance

/-- Contribution of byte `low + o` (`o ≥ 1`) in `extract_unaligned_le`:
shifted by `o * 8 - left`, with the final byte masked to its low
`right` bits when `right ≠ 0`. -/
def Sig.uleContrib (s : Sig) (pdu : List Nat) (o : Nat) : Nat :=
  let shift := o * 8 - s.left
  let b := pdu.getD (s.low + o) 0
  if o = s.byteCount ∧ s.rightBits ≠ 0 then
    ((b &&& ((1 <<< s.rightBits) - 1)) <<< shift) % 2 ^ s.nwidth
  else (b <<< shift) % 2 ^ s.nwidth

/-- The `for o in 0..=count` accumulation of `extract_unaligned_le`. -/
def Sig.uleAcc (s : Sig) (pdu : List Nat) : Nat → Nat
  | 0 => s.uleFirst pdu
  | o + 1 => s.uleAcc pdu o ||| s.uleContrib pdu (o + 1)

/-- Value assembled by `extract_unaligned_le` before sign extension. -/
def Sig.assembleULE (s : Sig) (pdu : List Nat) : Nat :=
  s.uleAcc pdu s.byteCount

/-- Runtime value of the code emitted by
`SignalInfo::extract_unaligned_le`. -/
def Sig.extract_unaligned_le (s : Sig) (pdu : List Nat) : Nat :=
  s.sextIf (s.assembleULE pdu)

/-- The `while rem > 0` tail of `extract_unaligned_be` after the first
byte: whole bytes are ORed in shifted left by the decremented `rem`, the
final partial byte (`rem < 8`) is ORed in right-shifted by `8 - rem`
(a cast of the `u8` byte to the storage type, hence `rshr`). -/
def ubeRest (sg : Bool) (N : Nat) (pdu : List Nat) (v byte rem : Nat) : Nat :=
  if rem = 0 then v
  else if rem < 8 then v ||| rshr sg N (pdu.getD byte 0) (8 - rem)
  else ubeRest sg N pdu (v ||| ((pdu.getD byte 0 <<< (rem - 8)) % 2 ^ N)) (byte + 1) (rem - 8)
termination_by rem
decreasing_by omega

/-- Value assembled by `extract_unaligned_be` before sign extension:
the first byte is masked/shifted according to whether the signal fits in
a single byte (`rem < 8`), then `ubeRest` consumes the remaining bytes.
The single-byte shift `left + 1 - width` underflows `usize` in the
source whenever `width > left + 1` (the generator would panic there);
the model totalises it as truncated subtraction. -/
def Sig.assembleUBE (s : Sig) (pdu : List Nat) : Nat :=
  let v := pdu.getD s.low 0
  if s.width < 8 then
    let m := (1 <<< (s.width - 1)) ||| ((1 <<< (s.width - 1)) - 1)
    (rshr s.signed s.nwidth v (s.left + 1 - s.width)) &&& m
  else
    let shift := s.width - s.left - 1
    let v1 :=
      if s.left < 7 then
        ((v &&& ((1 <<< s.left) ||| ((1 <<< s.left) - 1))) <<< shift) % 2 ^ s.nwidth
      else (v <<< shift) % 2 ^ s.nwidth
    ubeRest s.signed s.nwidth pdu v1 (s.low + 1) (s.width - s.left - 1)

/-- Runtime value of the code emitted by
`SignalInfo::extract_unaligned_be`. -/
def Sig.extract_unaligned_be (s : Sig) (pdu : List Nat) : Nat :=
  s.sextIf (s.assembleUBE pdu)

/-- Runtime value of the code emitted by `SignalInfo::extract_aligned`:
`from_le_bytes` / `from_be_bytes` over `width / 8` bytes at `low`. -/
def Sig.extract_aligned (s : Sig) (le : Bool) (pdu : List Nat) : Nat :=
  let b := fun i => pdu.getD (s.low + i) 0
  match s.width with
  | 8 => b 0
  | 16 =>
    if le then b 0 + 2 ^ 8 * b 1
    else b 1 + 2 ^ 8 * b 0
  | 32 =>
    if le then b 0 + 2 ^ 8 * b 1 + 2 ^ 16 * b 2 + 2 ^ 24 * b 3
    else b 3 + 2 ^ 8 * b 2 + 2 ^ 16 * b 1 + 2 ^ 24 * b 0
  | 64 =>
    if le then
      b 0 + 2 ^ 8 * b 1 + 2 ^ 16 * b 2 + 2 ^ 24 * b 3 +
        2 ^ 32 * b 4 + 2 ^ 40 * b 5 + 2 ^ 48 * b 6 + 2 ^ 56 * b 7
    else
      b 7 + 2 ^ 8 * b 6 + 2 ^ 16 * b 5 + 2 ^ 24 * b 4 +
        2 ^ 32 * b 3 + 2 ^ 40 * b 2 + 2 ^ 48 * b 1 + 2 ^ 56 * b 0
  | _ => 0

/-- The alignment test of `extract_bits`: `start.is_multiple_of(8)` for
little-endian signals, `start % 8 == 7` for big-endian ones. -/
def Sig.bitAligned (s : Sig) : Prop :=
  if s.isLittle = true then s.left = 0 else s.left = 7

instance (s : Sig) : Decidable s.bitAligned := by
  unfold Sig.bitAligned
  infer_instance

/-- Dispatch of `SignalInfo::extract_bits`: aligned when the bit width
equals the storage width and the start bit is byte-aligned for the
signal's byte order, otherwise the unaligned algorithm of that order. -/
def Sig.extract_bits (s : Sig) (pdu : List Nat) : Nat :=
  if s.width = s.nwidth ∧ s.bitAligned then s.extract_aligned s.isLittle pdu
  else if s.isLittle = true then s.extract_unaligned_le pdu
  else s.extract_unaligned_be pdu

/-- The five layout cases of the spec's Layout Analyzer. -/
inductive Layout where
  | singleBit
  | alignedLE
  | alignedBE
  | unalignedLE
  | unalignedBE
deriving DecidableEq, Repr

/-- Which extraction/insertion algorithm the generator routes a signal
to: `gen_decoder` short-circuits 1-bit signals, `extract_bits` picks
between aligned and the two unaligned paths. -/
def Sig.classify (s : Sig) : Layout :=
  if s.width = 1 then Layout.singleBit
  else if s.width = s.nwidth ∧ s.bitAligned then
    if s.isLittle = true then Layout.alignedLE else Layout.alignedBE
  else if s.isLittle = true then Layout.unalignedLE
  else Layout.unalignedBE

/-- A field value of a generated message struct: `bool`, an integer, or
an (exactly modelled) `f32`. -/
inductive FieldVal where
  | b (v : Bool)
  | i (v : Int)
  | f (v : ℚ)
deriving DecidableEq, Repr

/-- Cast of the extracted storage-typed value to `f32`
(`#value as f32` in `gen_decoder`), interpreting a signed pattern in
two's complement. -/
def Sig.castF (s : Sig) (v : Nat) : ℚ :=
  if s.signed = true then ((toInt s.nwidth v : Int) : ℚ) else (v : ℚ)

/-- Runtime semantics of the statement emitted by
`SignalInfo::gen_decoder`: the value stored into the signal's field.
1-bit signals test their single bit; scaled signals apply
`value * scale + offset` in `f32`; all others store the storage-typed
value unchanged. -/
def Sig.decodeVal (s : Sig) (pdu : List Nat) : FieldVal :=
  if s.width = 1 then
    FieldVal.b (decide (pdu.getD (s.start / 8) 0 &&& (1 <<< (s.start % 8)) ≠ 0))
  else
    let v := s.extract_bits pdu
    if s.is_float = true then FieldVal.f (s.castF v * s.scale + s.offset)
    else FieldVal.i (if s.signed = true then toInt s.nwidth v else (v : Int))

/-- Truncation toward zero of a rational, as Rust's `as` cast from a
float to an integer does before saturating. -/
def ratTrunc (q : ℚ) : Int :=
  if 0 ≤ q then ⌊q⌋ else ⌈q⌉

/-- Smallest value of the `N`-bit storage type. -/
def tyMin (sg : Bool) (N : Nat) : Int :=
  if sg then -(2 ^ (N - 1)) else 0

/-- Largest value of the `N`-bit storage type. -/
def tyMax (sg : Bool) (N : Nat) : Int :=
  if sg then 2 ^ (N - 1) - 1 else 2 ^ N - 1

/-- Rust's saturating float-to-integer `as` cast, returning the `N`-bit
pattern of the result. -/
def satCast (sg : Bool) (N : Nat) (q : ℚ) : Nat :=
  ((max (tyMin sg N) (min (tyMax sg N) (ratTrunc q))).emod (2 ^ N)).toNat

/-- The storage-typed pattern `v` computed at the head of
`gen_encoder`: `((self.name - offset) / scale) as utype` for scaled
signals, `self.name` otherwise. -/
def Sig.encVal (s : Sig) (f : FieldVal) : Nat :=
  if s.is_float = true then
    match f with
    | FieldVal.f x => satCast s.signed s.nwidth ((x - s.offset) / s.scale)
    | _ => 0
  else
    match f with
    | FieldVal.i n => (n.emod (2 ^ s.nwidth)).toNat
    | _ => 0

/-- The aligned little-endian encode loop of `gen_encoder`
(`while bits >= 8`): write `(v >> shift) as u8` bytes at increasing
indices, `shift` rising by 8. -/
def encALEloop (sg : Bool) (N v : Nat) (byte shift bits : Nat) (pdu : List Nat) : List Nat :=
  if bits < 8 then pdu
  else
    encALEloop sg N v (byte + 1) (shift + 8) (bits - 8)
      (pdu.set byte ((rshr sg N v shift) % 256))
termination_by bits
decreasing_by omega

/-- The aligned big-endian encode loop of `gen_encoder`: bytes written
most-significant first, starting at `(start - 7) / 8`, `shift` falling
by 8 while at least 8. -/
def encABEloop (sg : Bool) (N v : Nat) (byte shift bits : Nat) (pdu : List Nat) : List Nat :=
  if bits < 8 then pdu
  else
    encABEloop sg N v (byte + 1) (if 8 ≤ shift then shift - 8 else shift) (bits - 8)
      (pdu.set byte ((rshr sg N v shift) % 256))
termination_by bits
decreasing_by omega

/-- The unaligned little-endian encode loop of `gen_encoder` after the
first byte (`lshift = 0` from then on): whole bytes are written as
`(v >> rshift) & 0xff`, a final partial byte (`rem < 8`) is
read-modify-written under the mask `(1 << rem) - 1`. -/
def encULEloop (sg : Bool) (N v : Nat) (byte rshift rem : Nat) (pdu : List Nat) : List Nat :=
  if rem = 0 then pdu
  else if rem < 8 then
    let mask := (1 <<< rem) - 1
    pdu.set byte
      ((pdu.getD byte 0 &&& (255 ^^^ mask)) |||
        (((rshr sg N v rshift) % 256) &&& mask))
  else
    encULEloop sg N v (byte + 1) (rshift + 8) (rem - 8)
      (pdu.set byte ((rshr sg N v rshift) &&& 255))
termination_by rem
decreasing_by omega

/-- Unaligned little-endian insertion of `gen_encoder`.  With
`left = start % 8`: when `left = 0` the loop runs directly; otherwise
the first byte is read-modify-written under a mask built in `u8`
(`((1 << rem) - 1) << left`, high bits discarded by the 8-bit shift),
and — only when the remaining width is at least 8 — the loop continues
with the `8 - left` bits consumed.  A signal narrower than 8 bits
takes the `rem < 8` branch immediately and writes nothing beyond its
first byte even if it crosses into the next one. -/
def Sig.encUnalignedLE (s : Sig) (v : Nat) (pdu : List Nat) : List Nat :=
  if s.left = 0 then encULEloop s.signed s.nwidth v s.low 0 s.width pdu
  else if s.width < 8 then
    let mask := (((1 <<< s.width) - 1) <<< s.left) % 256
    pdu.set s.low
      ((pdu.getD s.low 0 &&& (255 ^^^ mask)) |||
        ((((v <<< s.left) % 2 ^ s.nwidth) % 256) &&& mask))
  else
    let mask := (((1 <<< (8 - s.left)) - 1) <<< s.left) % 256
    let pdu1 := pdu.set s.low
      ((pdu.getD s.low 0 &&& (255 ^^^ mask)) |||
        ((((v <<< s.left) % 2 ^ s.nwidth) % 256) &&& mask))
    encULEloop s.signed s.nwidth v (s.low + 1) (8 - s.left) (s.width - (8 - s.left)) pdu1

/-- Runtime semantics of the statements emitted by
`SignalInfo::gen_encoder` on a byte buffer.  1-bit signals set or clear
their bit through a read-modify-write; multi-bit signals compute the
storage pattern `v` and dispatch on alignment and byte order.  For a
multi-bit unaligned big-endian signal the source's branch is empty
(`todo!()` is commented out), so the buffer is returned unchanged. -/
def Sig.encode (s : Sig) (f : FieldVal) (pdu : List Nat) : List Nat :=
  if s.width = 1 then
    let byte := s.start / 8
    let mask := 1 <<< (s.start % 8)
    match f with
    | FieldVal.b true => pdu.set byte (pdu.getD byte 0 ||| mask)
    | FieldVal.b false => pdu.set byte (pdu.getD byte 0 &&& (255 ^^^ mask))
    | _ => pdu
  else
    let v := s.encVal f
    if s.isLittle = true then
      if s.width = s.nwidth ∧ s.left = 0 then encALEloop s.signed s.nwidth v s.low 0 s.nwidth pdu
      else s.encUnalignedLE v pdu
    else if s.width = s.nwidth ∧ s.left = 7 then
      encABEloop s.signed s.nwidth v ((s.start - 7) / 8) (s.nwidth - 8) s.nwidth pdu
    else pdu

/-- A message as assembled by `DeriveData::build`: its DLC and the
(already selected) signals, in schema order. -/
structure Msg where
  dlc : Nat
  signals : List Sig

/-- The generated `decode(&mut self, pdu: &[u8]) -> bool`: fail fast on
a length mismatch, otherwise run every selected signal's decoder in
schema order, each writing its own field, and return true. -/
def Msg.decode (m : Msg) (fields : List FieldVal) (pdu : List Nat) :
    Bool × List FieldVal :=
  if pdu.length ≠ m.dlc then (false, fields)
  else (true, m.signals.map (fun s => s.decodeVal pdu))

/-- The generated `encode(&mut self, pdu: &mut [u8]) -> bool`: fail
fast on a length mismatch, otherwise run every selected signal's
encoder in schema order over the buffer and return true. -/
def Msg.encode (m : Msg) (fields : List FieldVal) (pdu : List Nat) :
    Bool × List Nat :=
  if pdu.length ≠ m.dlc then (false, pdu)
  else (true, (m.signals.zip fields).foldl (fun b sf => sf.1.encode sf.2 b) pdu)

/-- Byte indices of the buffer mentioned by the aligned extraction and
aligned little-endian insertion code for this signal (one per written
or read byte, from `low`). -/
def Sig.alignedIdx (s : Sig) : List Nat :=
  match s.width with
  | 8 => [s.low]
  | 16 => [s.low, s.low + 1]
  | 32 => [s.low, s.low + 1, s.low + 2, s.low + 3]
  | 64 => [s.low, s.low + 1, s.low + 2, s.low + 3,
           s.low + 4, s.low + 5, s.low + 6, s.low + 7]
  | _ => []

/-- Byte indices touched by a loop that consumes `rem` bits starting at
`byte`, eight per byte — the shape shared by `ubeRest`, `encULEloop`
and the encode loops. -/
def byteRun (byte rem : Nat) : List Nat :=
  if rem = 0 then []
  else if rem < 8 then [byte]
  else byte :: byteRun (byte + 1) (rem - 8)
termination_by rem
decreasing_by omega

/-- Buffer indices read by the code emitted for this signal's decoder. -/
def Sig.decodeIdx (s : Sig) : List Nat :=
  if s.width = 1 then [s.start / 8]
  else if s.width = s.nwidth ∧ s.bitAligned then s.alignedIdx
  else if s.isLittle = true then (List.range (s.byteCount + 1)).map (fun o => s.low + o)
  else if s.width < 8 then [s.low]
  else s.low :: byteRun (s.low + 1) (s.width - s.left - 1)

/-- Buffer indices written by the code emitted for this signal's
encoder (empty for the unimplemented multi-bit unaligned big-endian
case). -/
def Sig.encodeIdx (s : Sig) : List Nat :=
  if s.width = 1 then [s.start / 8]
  else if s.isLittle = true then
    if s.width = s.nwidth ∧ s.left = 0 then s.alignedIdx
    else if s.left = 0 then byteRun s.low s.width
    else if s.width < 8 then [s.low]
    else s.low :: byteRun (s.low + 1) (s.width - (8 - s.left))
  else if s.width = s.nwidth ∧ s.left = 7 then s.alignedIdx
  else []

/-- Bit position of the start bit in big-endian (MSB-first) numbering:
the schema invariant for big-endian signals is stated against this. -/
def Sig.bepos (s : Sig) : Nat :=
  8 * (s.start / 8) + (7 - s.start % 8)

/-- The schema invariant of the spec's data model: the signal's bits,
counted in its byte order's numbering, lie within `8 * DLC`. -/
def Sig.fits (s : Sig) (dlc : Nat) : Prop :=
  if s.isLittle = true then s.start + s.width ≤ 8 * dlc
  else s.bepos + s.width ≤ 8 * dlc

instance (s : Sig) (dlc : Nat) : Decidable (s.fits dlc) := by
  unfold Sig.fits
  infer_instance

/-- A buffer of `d` bytes holding the little-endian bytes of `x`
(byte `i` is `(x >>> (8 * i)) % 256`). -/
def bufOf : Nat → Nat → List Nat
  | 0, _ => []
  | d + 1, x => x % 256 :: bufOf d (x >>> 8)

/-- The field value denoting a raw `width`-bit pattern `p`: the pattern
is sign extended into the storage type for signed signals, and the
field holds the storage-typed integer value. -/
def Sig.fieldOfRaw (s : Sig) (p : Nat) : FieldVal :=
  if s.signed = true then FieldVal.i (toInt s.nwidth (s.sextIf p))
  else FieldVal.i (p : Int)

/-- The big-endian byte stream of the low `bits` bits of `v` (with `bits`
a multiple of 8), read as the integer whose byte `j` is the chunk the
aligned big-endian encode loop writes at offset `byte + j` from the end:
byte 0 holds the most significant 8 bits of `v % 2 ^ bits`. -/
def beChunk (v bits : Nat) : Nat :=
  if bits < 8 then 0
  else (v >>> (bits - 8)) % 256 + 256 * beChunk v (bits - 8)
termination_by bits
decreasing_by omega

/-! ## Bit-arithmetic helper lemmas -/

theorem land_two_pow_sub_one (x r : Nat) : x &&& (2 ^ r - 1) = x % 2 ^ r := by
  refine Nat.eq_of_testBit_eq fun i => ?_
  rw [Nat.testBit_land, Nat.testBit_mod_two_pow, Nat.testBit_two_pow_sub_one,
    Bool.and_comm]

theorem lor_two_pow_mul {a : Nat} (b k : Nat) (ha : a < 2 ^ k) :
    a ||| 2 ^ k * b = a + 2 ^ k * b := by
  refine Nat.eq_of_testBit_eq fun i => ?_
  rw [Nat.testBit_lor]
  rcases lt_or_le i k with hik | hik
  · have hdvd : (2 : Nat) ^ i ∣ 2 ^ k * b := Dvd.dvd.mul_right (pow_dvd_pow 2 hik.le) b
    have hsplit : (2 : Nat) ^ k = 2 ^ i * 2 ^ (k - i) := by
      rw [← pow_add]
      congr 1
      omega
    have hqd : (2 : Nat) ^ k * b / 2 ^ i = 2 ^ (k - i) * b := by
      rw [hsplit, Nat.mul_assoc, Nat.mul_div_cancel_left _ (Nat.pos_pow_of_pos i (by norm_num))]
    have hdiv : (a + 2 ^ k * b) / 2 ^ i = a / 2 ^ i + 2 ^ (k - i) * b := by
      rw [Nat.add_div_of_dvd_left hdvd, hqd]
    have heven : ∀ x : Nat, (x + 2 ^ (k - i) * b) % 2 = x % 2 := by
      intro x
      have hk : k - i = (k - i - 1) + 1 := by omega
      rw [hk, pow_succ, show (2 : Nat) ^ (k - i - 1) * 2 * b = x + 2 * (2 ^ (k - i - 1) * b) - x by ring_nf; omega]
      omega
    have hbit2 : (2 ^ k * b).testBit i = false := by
      rw [Nat.testBit_to_div_mod, hqd, decide_eq_false_iff_not]
      intro hx
      have := heven 0
      simp only [Nat.zero_add, Nat.zero_mod] at this
      omega
    rw [hbit2, Bool.or_false, Nat.testBit_to_div_mod, Nat.testBit_to_div_mod, hdiv, heven]
  · have hbita : a.testBit i = false :=
      Nat.testBit_eq_false_of_lt (lt_of_lt_of_le ha (Nat.pow_le_pow_right (by norm_num) hik))
    rw [hbita, Bool.false_or]
    have h2i : (2 : Nat) ^ i = 2 ^ k * 2 ^ (i - k) := by
      rw [← pow_add]
      congr 1
      omega
    have hdiv : (a + 2 ^ k * b) / 2 ^ i = b / 2 ^ (i - k) := by
      rw [h2i, ← Nat.div_div_eq_div_mul,
        Nat.add_mul_div_left _ _ (Nat.pos_pow_of_pos k (by norm_num)),
        Nat.div_eq_of_lt ha, Nat.zero_add]
    have hdiv2 : (2 : Nat) ^ k * b / 2 ^ i = b / 2 ^ (i - k) := by
      rw [h2i, ← Nat.div_div_eq_div_mul,
        Nat.mul_div_cancel_left _ (Nat.pos_pow_of_pos k (by norm_num))]
    rw [Nat.testBit_to_div_mod, Nat.testBit_to_div_mod, hdiv, hdiv2]

theorem getD_lt_256 {pdu : List Nat} (h : ∀ b ∈ pdu, b < 256) (i : Nat) :
    pdu.getD i 0 < 256 := by
  rcases lt_or_le i pdu.length with hi | hi
  · rw [List.getD_eq_getElem _ _ hi]
    exact h _ (List.getElem_mem hi)
  · rw [List.getD_eq_default _ _ hi]
    norm_num

theorem two_pow_or_two_pow_sub_one (w : Nat) (hw : 1 ≤ w) :
    2 ^ (w - 1) ||| (2 ^ (w - 1) - 1) = 2 ^ w - 1 := by
  rw [Nat.lor_comm]
  have h := lor_two_pow_mul (a := 2 ^ (w - 1) - 1) 1 (w - 1)
    (by have := Nat.pos_pow_of_pos (w - 1) (show 0 < 2 by norm_num); omega)
  rw [Nat.mul_one] at h
  rw [h]
  have h2 : 2 ^ w = 2 ^ (w - 1) * 2 := by
    rw [← pow_succ]
    congr 1
    omega
  have := Nat.pos_pow_of_pos (w - 1) (show 0 < 2 by norm_num)
  omega

theorem xor_two_pow_sub_one (N w : Nat) (h : w ≤ N) :
    (2 ^ N - 1) ^^^ (2 ^ w - 1) = 2 ^ w * (2 ^ (N - w) - 1) := by
  refine Nat.eq_of_testBit_eq fun i => ?_
  rw [Nat.testBit_xor, Nat.testBit_two_pow_sub_one, Nat.testBit_two_pow_sub_one,
    show (2 : Nat) ^ w * (2 ^ (N - w) - 1) = (2 ^ (N - w) - 1) <<< w by
      rw [Nat.shiftLeft_eq]; ring,
    Nat.testBit_shiftLeft, Nat.testBit_two_pow_sub_one]
  rcases lt_or_le i w with hiw | hiw
  · have hiN : i < N := by omega
    simp [hiw, hiN, Nat.not_le.mpr hiw]
  · rcases lt_or_le i N with hiN | hiN
    · simp [hiN, Nat.not_lt.mpr hiw, hiw]
      omega
    · have hiw2 : ¬ i < w := by omega
      simp [Nat.not_lt.mpr hiN, hiw2, hiw]
      omega

theorem two_pow_mul_two_pow_sub_one (N w : Nat) (h : w ≤ N) :
    2 ^ w * (2 ^ (N - w) - 1) = 2 ^ N - 2 ^ w := by
  have h2 : (2 : Nat) ^ w * 2 ^ (N - w) = 2 ^ N := by
    rw [← pow_add]
    congr 1
    omega
  have := Nat.pos_pow_of_pos (N - w) (show 0 < 2 by norm_num)
  have := Nat.pos_pow_of_pos w (show 0 < 2 by norm_num)
  calc 2 ^ w * (2 ^ (N - w) - 1) = 2 ^ w * 2 ^ (N - w) - 2 ^ w * 1 := by
        rw [Nat.mul_sub]
  _ = 2 ^ N - 2 ^ w := by rw [h2, Nat.mul_one]

theorem testBit_iff_land_two_pow (v i : Nat) :
    v &&& (1 <<< i) ≠ 0 ↔ v.testBit i = true := by
  rw [Nat.one_shiftLeft, Nat.and_two_pow]
  constructor
  · intro h
    rcases hb : v.testBit i with _ | _
    · rw [hb] at h
      simp at h
    · rfl
  · intro h
    rw [h]
    have := Nat.pos_pow_of_pos i (show 0 < 2 by norm_num)
    simp only [Bool.toNat_true, Nat.one_mul]
    omega


theorem lor_high_mask_eq (N w v : Nat) (hwN : w ≤ N) (hv : v < 2 ^ N) :
    v ||| 2 ^ w * (2 ^ (N - w) - 1) = v % 2 ^ w ||| 2 ^ w * (2 ^ (N - w) - 1) := by
  have hm : (2 : Nat) ^ w * (2 ^ (N - w) - 1) = (2 ^ (N - w) - 1) <<< w := by
    rw [Nat.shiftLeft_eq]
    ring
  refine Nat.eq_of_testBit_eq fun i => ?_
  rw [Nat.testBit_lor, Nat.testBit_lor, Nat.testBit_mod_two_pow, hm,
    Nat.testBit_shiftLeft, Nat.testBit_two_pow_sub_one]
  rcases lt_or_le i w with hiw | hiw
  · simp [hiw]
  · rcases lt_or_le i N with hiN | hiN
    · have : i - w < N - w := by omega
      simp [hiw, this, Nat.not_lt.mpr hiw]
    · have h1 : v.testBit i = false := Nat.testBit_eq_false_of_lt (by
        calc v < 2 ^ N := hv
        _ ≤ 2 ^ i := Nat.pow_le_pow_right (by norm_num) hiN)
      have h2 : ¬ i - w < N - w := by omega
      simp [h1, h2, Nat.not_lt.mpr hiw]

theorem signExtend_eq (N w v : Nat) (h1 : 1 ≤ w) (hwN : w ≤ N) (hv : v < 2 ^ N) :
    signExtend N w v =
      if v.testBit (w - 1) then v % 2 ^ w + (2 ^ N - 2 ^ w) else v := by
  rw [signExtend]
  rcases hb : v.testBit (w - 1) with _ | _
  · rw [if_neg, if_neg]
    · simp
    · intro hc
      rw [testBit_iff_land_two_pow, hb] at hc
      exact Bool.noConfusion hc
  · rw [if_pos, if_pos]
    · rw [Nat.one_shiftLeft, two_pow_or_two_pow_sub_one w h1,
        xor_two_pow_sub_one N w hwN, lor_high_mask_eq N w v hwN hv,
        lor_two_pow_mul _ w (Nat.mod_lt v (Nat.pos_pow_of_pos w (by norm_num))),
        two_pow_mul_two_pow_sub_one N w hwN]
    · simp
    · rw [testBit_iff_land_two_pow, hb]

theorem signExtend_mod_self (N w p : Nat) (h1 : 1 ≤ w) (hwN : w ≤ N) (hp : p < 2 ^ w) :
    signExtend N w p % 2 ^ w = p := by
  have hv : p < 2 ^ N := lt_of_lt_of_le hp (Nat.pow_le_pow_right (by norm_num) hwN)
  rw [signExtend_eq N w p h1 hwN hv]
  rcases hb : p.testBit (w - 1) with _ | _
  · rw [if_neg (by simp), Nat.mod_eq_of_lt hp]
  · rw [if_pos rfl, ← two_pow_mul_two_pow_sub_one N w hwN, Nat.mul_comm,
      Nat.add_mul_mod_self_right, Nat.mod_mod_of_dvd p dvd_rfl, Nat.mod_eq_of_lt hp]


/-! ## Claim C2: length guard and atomicity of the generated decode/encode -/

/-- C2: with a buffer whose length differs from the DLC, the generated
`decode` and `encode` both return false and leave the fields
(respectively the buffer) unchanged; with a buffer of exactly DLC
bytes, `decode` returns true and stores each selected signal's decoded
value in schema order, and `encode` likewise returns true — a
length-correct decode never fails. -/
theorem decode_encode_length_guard (m : Msg) (flds : List FieldVal) (pdu : List Nat) :
    (pdu.length ≠ m.dlc →
      Msg.decode m flds pdu = (false, flds) ∧ Msg.encode m flds pdu = (false, pdu)) ∧
    (pdu.length = m.dlc →
      Msg.decode m flds pdu =
        (true, m.signals.map (fun s => s.decodeVal pdu)) ∧
      (Msg.encode m flds pdu).1 = true) := by
  constructor
  · intro h
    rw [Msg.decode, Msg.encode, if_pos h, if_pos h]
    exact ⟨rfl, rfl⟩
  · intro h
    rw [Msg.decode, Msg.encode, if_neg (by omega), if_neg (by omega)]
    exact ⟨rfl, rfl⟩

/-- Witness for C2 at a concrete message and two concrete buffers. -/
theorem decode_encode_length_guard_witness :
    ((([0, 0] : List Nat).length ≠ (Msg.mk 1 []).dlc) ∧
      Msg.decode (Msg.mk 1 []) [] [0, 0] = (false, []) ∧
      Msg.encode (Msg.mk 1 []) [] [0, 0] = (false, [0, 0])) ∧
    ((([0] : List Nat).length = (Msg.mk 1 []).dlc) ∧
      (Msg.decode (Msg.mk 1 []) [] [0]).1 = true) := by
  refine ⟨⟨by decide, ?_⟩, by decide, ?_⟩
  · exact (decode_encode_length_guard (Msg.mk 1 []) [] [0, 0]).1 (by decide)
  · rw [((decode_encode_length_guard (Msg.mk 1 []) [] [0]).2 (by decide)).1]

/-! ## Claim C3: unaligned big-endian encode is not rejected at
generation time.  The spec requires an UnsupportedLayout to be a
generation-time validation error; `gen_encoder`'s unaligned big-endian
branch instead silently emits no insertion code (`todo!()` commented
out), so the generated `encode` succeeds while writing nothing. -/

/-- C3 (code bug evaluated at the failing input): for a message with an
8-bit unaligned big-endian signal at start bit 3, field value 5, the
generated encode on a zeroed length-2 buffer returns true and leaves
the buffer all-zero — no generation-time error, no runtime write. -/
theorem unaligned_be_encode_silently_skipped :
    Msg.encode (Msg.mk 2 [Sig.mk 3 8 ByteOrder.big false 1 0])
      [FieldVal.i 5] [0, 0] = (true, [0, 0]) := by
  decide

/-! ## Claim C4: the float decision of the Type Selector -/

/-- C4: for a multi-bit signal the native type is `f32` exactly when
the scale factor differs from `1.0`; with scale `1.0` the native type
equals the storage type (the signal's offset is not consulted at all —
the statement quantifies over signals with arbitrary offsets). -/
theorem native_type_float_iff_scale (s : Sig) (h : 1 < s.width) :
    (s.ntype = Ty.f32T ↔ s.scale ≠ 1) ∧
    (s.scale = 1 → s.ntype = s.utype) := by
  constructor
  · constructor
    · intro hf hs
      rw [Sig.ntype, if_pos hs, Sig.utype, if_neg (by omega)] at hf
      exact Ty.noConfusion hf
    · intro hs
      rw [Sig.ntype, if_neg hs]
  · intro hs
    rw [Sig.ntype, if_pos hs]

/-- Witness for C4: a 9-bit signal with scale 1 and a nonzero offset is
integer-typed, not float. -/
theorem native_type_float_iff_scale_witness :
    (1 < (Sig.mk 0 9 ByteOrder.little false 1 5).width) ∧
    ((Sig.mk 0 9 ByteOrder.little false 1 5).ntype = Ty.f32T ↔
      (Sig.mk 0 9 ByteOrder.little false 1 5).scale ≠ 1) ∧
    ((Sig.mk 0 9 ByteOrder.little false 1 5).scale = 1 →
      (Sig.mk 0 9 ByteOrder.little false 1 5).ntype =
        (Sig.mk 0 9 ByteOrder.little false 1 5).utype) := by
  refine ⟨by decide, native_type_float_iff_scale _ (by decide)⟩

/-! ## Claim C5: single-bit typing.  The claim says a 1-bit signal's
native type is boolean even when `scale != 1.0`; in the code the float
decision (`scale == 1.0`) is applied after the bool storage choice, so
a scaled 1-bit signal gets native type `f32`.  Corrected: the storage
type is boolean regardless, and the native type is boolean whenever
the scale factor is `1.0`. -/

/-- C5 counterexample: a 1-bit signal with scale `2.0` has native type
`f32`, not boolean, refuting the claim as stated. -/
theorem single_bit_scaled_not_bool :
    (Sig.mk 0 1 ByteOrder.little false 2 0).ntype ≠ Ty.boolT := by
  decide

/-- C5 (amended): for a 1-bit signal the storage type is boolean
regardless of signedness, scale and offset, and the native type is
boolean whenever the scale factor is `1.0`. -/
theorem single_bit_storage_bool (s : Sig) (h : s.width = 1) :
    s.utype = Ty.boolT ∧ (s.scale = 1 → s.ntype = Ty.boolT) := by
  constructor
  · rw [Sig.utype, if_pos h]
  · intro hs
    rw [Sig.ntype, if_pos hs, Sig.utype, if_pos h]

/-- Witness for C5 (amended) at a concrete signed scaled 1-bit signal. -/
theorem single_bit_storage_bool_witness :
    ((Sig.mk 4 1 ByteOrder.big true 1 3).width = 1) ∧
    ((Sig.mk 4 1 ByteOrder.big true 1 3).utype = Ty.boolT ∧
      ((Sig.mk 4 1 ByteOrder.big true 1 3).scale = 1 →
        (Sig.mk 4 1 ByteOrder.big true 1 3).ntype = Ty.boolT)) :=
  ⟨by decide, single_bit_storage_bool _ (by decide)⟩

/-! ## Claim C9: the generated encoder for a multi-bit unaligned
big-endian signal emits no insertion logic — the buffer is untouched by
that signal and the message-level encode still reports success. -/

/-- C9: for any multi-bit unaligned big-endian signal, the emitted
encoder leaves every byte of the buffer exactly as it was, for every
field value; and message-level encode on a correct-length buffer
returns true with no error reported. -/
theorem unaligned_be_encode_is_noop (s : Sig) (f : FieldVal) (pdu : List Nat)
    (m : Msg) (flds : List FieldVal) (buf : List Nat)
    (hw : 1 < s.width) (hbe : s.byteOrder = ByteOrder.big)
    (hua : ¬(s.width = s.nwidth ∧ s.left = 7)) :
    s.encode f pdu = pdu ∧
    (buf.length = m.dlc → (Msg.encode m flds buf).1 = true) := by
  constructor
  · have hlit : s.isLittle = false := by
      rw [Sig.isLittle, hbe]
    rw [Sig.encode, if_neg (by omega)]
    simp only [hlit]
    rw [if_neg (by simp), if_neg hua]
  · intro h
    rw [Msg.encode, if_neg (by omega)]

/-- Witness for C9: an 8-bit big-endian signal at start bit 3 inside a
2-byte message, nonzero field value, nonzero buffer. -/
theorem unaligned_be_encode_is_noop_witness :
    (1 < (Sig.mk 3 8 ByteOrder.big false 1 0).width) ∧
    ((Sig.mk 3 8 ByteOrder.big false 1 0).byteOrder = ByteOrder.big) ∧
    (¬((Sig.mk 3 8 ByteOrder.big false 1 0).width =
        (Sig.mk 3 8 ByteOrder.big false 1 0).nwidth ∧
      (Sig.mk 3 8 ByteOrder.big false 1 0).left = 7)) ∧
    ((Sig.mk 3 8 ByteOrder.big false 1 0).encode (FieldVal.i 9) [5, 6] = [5, 6] ∧
      (([5, 6] : List Nat).length = (Msg.mk 2 [Sig.mk 3 8 ByteOrder.big false 1 0]).dlc →
        (Msg.encode (Msg.mk 2 [Sig.mk 3 8 ByteOrder.big false 1 0])
          [FieldVal.i 9] [5, 6]).1 = true)) :=
  ⟨by decide, by decide, by decide,
    unaligned_be_encode_is_noop _ (FieldVal.i 9) [5, 6] _ [FieldVal.i 9] [5, 6]
      (by decide) (by decide) (by decide)⟩

/-! ## Claim C7: layout classification -/

/-- C7: a multi-bit signal is routed to the aligned algorithm exactly
when its bit width equals the storage width and its start bit is
byte-aligned for its byte order (`start % 8 == 0` little-endian,
`start % 8 == 7` big-endian); every other multi-bit signal goes to the
unaligned algorithm of its byte order, every 1-bit signal to the
single-bit path, and `extract_bits` follows this classification. -/
theorem layout_classification (s : Sig) :
    (1 < s.width →
      ((s.classify = Layout.alignedLE ∨ s.classify = Layout.alignedBE ↔
        s.width = s.nwidth ∧
          ((s.byteOrder = ByteOrder.little ∧ s.start % 8 = 0) ∨
            (s.byteOrder = ByteOrder.big ∧ s.start % 8 = 7))) ∧
        (s.classify = Layout.unalignedLE ↔
          s.byteOrder = ByteOrder.little ∧
            ¬(s.width = s.nwidth ∧ s.start % 8 = 0)) ∧
        (s.classify = Layout.unalignedBE ↔
          s.byteOrder = ByteOrder.big ∧
            ¬(s.width = s.nwidth ∧ s.start % 8 = 7)))) ∧
    (s.width = 1 → s.classify = Layout.singleBit) ∧
    (∀ pdu,
      ((s.classify = Layout.alignedLE ∨ s.classify = Layout.alignedBE) →
        s.extract_bits pdu = s.extract_aligned s.isLittle pdu) ∧
      (s.classify = Layout.unalignedLE →
        s.extract_bits pdu = s.extract_unaligned_le pdu) ∧
      (s.classify = Layout.unalignedBE →
        s.extract_bits pdu = s.extract_unaligned_be pdu)) := by
  have hLB : (s.isLittle = true ∧ s.byteOrder = ByteOrder.little) ∨
      (s.isLittle = false ∧ s.byteOrder = ByteOrder.big) := by
    cases hb : s.byteOrder <;> simp [Sig.isLittle, hb]
  have hnotboth : ¬(s.byteOrder = ByteOrder.little ∧ s.byteOrder = ByteOrder.big) := by
    rintro ⟨h1, h2⟩
    rw [h1] at h2
    exact ByteOrder.noConfusion h2
  rcases hLB with ⟨hl, hb⟩ | ⟨hl, hb⟩
  · -- little-endian
    have hba : s.bitAligned ↔ s.start % 8 = 0 := by
      rw [Sig.bitAligned, if_pos hl, Sig.left]
    refine ⟨fun hw => ?_, fun h1 => by rw [Sig.classify, if_pos h1], fun pdu => ?_⟩
    · have hw1 : ¬s.width = 1 := by omega
      by_cases hal : s.width = s.nwidth ∧ s.bitAligned
      · have hc : s.classify = Layout.alignedLE := by
          rw [Sig.classify, if_neg hw1, if_pos hal, if_pos hl]
        refine ⟨⟨fun _ => ⟨hal.1, Or.inl ⟨hb, hba.mp hal.2⟩⟩, fun _ => Or.inl hc⟩,
          ⟨fun hx => absurd (hc ▸ hx) (by decide), fun hx => absurd ⟨hal.1, hba.mp hal.2⟩ hx.2⟩,
          ⟨fun hx => absurd (hc ▸ hx) (by decide), fun hx => absurd ⟨hb, hx.1⟩ hnotboth⟩⟩
      · have hc : s.classify = Layout.unalignedLE := by
          rw [Sig.classify, if_neg hw1, if_neg hal, if_pos hl]
        refine ⟨⟨fun hx => ?_, fun hx => ?_⟩,
          ⟨fun _ => ⟨hb, fun hy => hal ⟨hy.1, hba.mpr hy.2⟩⟩, fun _ => hc⟩,
          ⟨fun hx => absurd (hc ▸ hx) (by decide), fun hx => absurd ⟨hb, hx.1⟩ hnotboth⟩⟩
        · rcases hx with hx | hx <;> rw [hc] at hx <;> exact Layout.noConfusion hx
        · rcases hx.2 with hy | hy
          · exact absurd ⟨hx.1, hba.mpr hy.2⟩ hal
          · exact absurd ⟨hb, hy.1⟩ hnotboth
    · by_cases hw1 : s.width = 1
      · have hc : s.classify = Layout.singleBit := by rw [Sig.classify, if_pos hw1]
        refine ⟨fun hx => ?_, fun hx => absurd (hc ▸ hx) (by decide),
          fun hx => absurd (hc ▸ hx) (by decide)⟩
        rcases hx with hx | hx <;> rw [hc] at hx <;> exact Layout.noConfusion hx
      · by_cases hal : s.width = s.nwidth ∧ s.bitAligned
        · refine ⟨fun _ => by rw [Sig.extract_bits, if_pos hal],
            fun hx => ?_, fun hx => ?_⟩ <;>
            · rw [Sig.classify, if_neg hw1, if_pos hal, if_pos hl] at hx
              exact Layout.noConfusion hx
        · have hc : s.classify = Layout.unalignedLE := by
            rw [Sig.classify, if_neg hw1, if_neg hal, if_pos hl]
          refine ⟨fun hx => ?_,
            fun _ => by rw [Sig.extract_bits, if_neg hal, if_pos hl],
            fun hx => absurd (hc ▸ hx) (by decide)⟩
          rcases hx with hx | hx <;> rw [hc] at hx <;> exact Layout.noConfusion hx
  · -- big-endian
    have hba : s.bitAligned ↔ s.start % 8 = 7 := by
      rw [Sig.bitAligned, if_neg (by simp [hl]), Sig.left]
    have hll : ¬s.isLittle = true := by simp [hl]
    refine ⟨fun hw => ?_, fun h1 => by rw [Sig.classify, if_pos h1], fun pdu => ?_⟩
    · have hw1 : ¬s.width = 1 := by omega
      by_cases hal : s.width = s.nwidth ∧ s.bitAligned
      · have hc : s.classify = Layout.alignedBE := by
          rw [Sig.classify, if_neg hw1, if_pos hal, if_neg hll]
        refine ⟨⟨fun _ => ⟨hal.1, Or.inr ⟨hb, hba.mp hal.2⟩⟩, fun _ => Or.inr hc⟩,
          ⟨fun hx => absurd (hc ▸ hx) (by decide), fun hx => absurd ⟨hx.1, hb⟩ hnotboth⟩,
          ⟨fun hx => absurd (hc ▸ hx) (by decide), fun hx => absurd ⟨hal.1, hba.mp hal.2⟩ hx.2⟩⟩
      · have hc : s.classify = Layout.unalignedBE := by
          rw [Sig.classify, if_neg hw1, if_neg hal, if_neg hll]
        refine ⟨⟨fun hx => ?_, fun hx => ?_⟩,
          ⟨fun hx => absurd (hc ▸ hx) (by decide), fun hx => absurd ⟨hx.1, hb⟩ hnotboth⟩,
          ⟨fun _ => ⟨hb, fun hy => hal ⟨hy.1, hba.mpr hy.2⟩⟩, fun _ => hc⟩⟩
        · rcases hx with hx | hx <;> rw [hc] at hx <;> exact Layout.noConfusion hx
        · rcases hx.2 with hy | hy
          · exact absurd ⟨hy.1, hb⟩ hnotboth
          · exact absurd ⟨hx.1, hba.mpr hy.2⟩ hal
    · by_cases hw1 : s.width = 1
      · have hc : s.classify = Layout.singleBit := by rw [Sig.classify, if_pos hw1]
        refine ⟨fun hx => ?_, fun hx => absurd (hc ▸ hx) (by decide),
          fun hx => absurd (hc ▸ hx) (by decide)⟩
        rcases hx with hx | hx <;> rw [hc] at hx <;> exact Layout.noConfusion hx
      · by_cases hal : s.width = s.nwidth ∧ s.bitAligned
        · refine ⟨fun _ => by rw [Sig.extract_bits, if_pos hal],
            fun hx => ?_, fun hx => ?_⟩ <;>
            · rw [Sig.classify, if_neg hw1, if_pos hal, if_neg hll] at hx
              exact Layout.noConfusion hx
        · have hc : s.classify = Layout.unalignedBE := by
            rw [Sig.classify, if_neg hw1, if_neg hal, if_neg hll]
          refine ⟨fun hx => ?_,
            fun hx => absurd (hc ▸ hx) (by decide),
            fun _ => by rw [Sig.extract_bits, if_neg hal, if_neg hll]⟩
          rcases hx with hx | hx <;> rw [hc] at hx <;> exact Layout.noConfusion hx

/-- Witness for C7 at a 12-bit big-endian signal at start bit 5
(unaligned), checking the classification equivalences concretely. -/
theorem layout_classification_witness :
    (1 < (Sig.mk 5 12 ByteOrder.big true 1 0).width) ∧
    ((Sig.mk 5 12 ByteOrder.big true 1 0).classify = Layout.unalignedBE ↔
      (Sig.mk 5 12 ByteOrder.big true 1 0).byteOrder = ByteOrder.big ∧
        ¬((Sig.mk 5 12 ByteOrder.big true 1 0).width =
            (Sig.mk 5 12 ByteOrder.big true 1 0).nwidth ∧
          (Sig.mk 5 12 ByteOrder.big true 1 0).start % 8 = 7)) := by
  refine ⟨by decide, ((layout_classification (Sig.mk 5 12 ByteOrder.big true 1 0)).1
    (by decide)).2.2⟩

/-! ## Claim C6: sign extension -/

/-- C6: for every signed signal narrower than its storage type, the
little- and big-endian unaligned decoders apply the shared
sign-extension step to the assembled raw value; that step, whenever bit
`width - 1` of the assembled value is set, sets every higher-order bit
of the storage type while preserving the low `width` bits (so the
value reads as `raw - 2 ^ width` in two's complement, e.g. raw `0b101`
of a 3-bit field becomes `-3`), and leaves the value unchanged when
the bit is clear. -/
theorem sign_extension_step (s : Sig) (pdu : List Nat)
    (hsg : s.signed = true) (hw : s.width < s.nwidth) (hw1 : 1 ≤ s.width) :
    (s.extract_unaligned_le pdu = signExtend s.nwidth s.width (s.assembleULE pdu) ∧
      s.extract_unaligned_be pdu = signExtend s.nwidth s.width (s.assembleUBE pdu)) ∧
    (∀ v, v < 2 ^ s.nwidth →
      (v.testBit (s.width - 1) = true →
        (∀ i, s.width ≤ i → i < s.nwidth →
          (signExtend s.nwidth s.width v).testBit i = true) ∧
        (∀ i, i < s.width →
          (signExtend s.nwidth s.width v).testBit i = v.testBit i) ∧
        toInt s.nwidth (signExtend s.nwidth s.width v) =
          ((v % 2 ^ s.width : Nat) : Int) - 2 ^ s.width) ∧
      (v.testBit (s.width - 1) = false → signExtend s.nwidth s.width v = v)) := by
  refine ⟨⟨?_, ?_⟩, fun v hv => ⟨fun hb => ?_, fun hb => ?_⟩⟩
  · rw [Sig.extract_unaligned_le, Sig.sextIf, if_pos ⟨hsg, hw⟩]
  · rw [Sig.extract_unaligned_be, Sig.sextIf, if_pos ⟨hsg, hw⟩]
  · have hse := signExtend_eq s.nwidth s.width v hw1 hw.le hv
    rw [hse, if_pos hb]
    have hlor : v % 2 ^ s.width + (2 ^ s.nwidth - 2 ^ s.width) =
        v % 2 ^ s.width ||| 2 ^ s.width * (2 ^ (s.nwidth - s.width) - 1) := by
      rw [lor_two_pow_mul _ s.width (Nat.mod_lt v (Nat.pos_pow_of_pos s.width (by norm_num))),
        two_pow_mul_two_pow_sub_one s.nwidth s.width hw.le]
    have hmask : (2 : Nat) ^ s.width * (2 ^ (s.nwidth - s.width) - 1) =
        (2 ^ (s.nwidth - s.width) - 1) <<< s.width := by
      rw [Nat.shiftLeft_eq]
      ring
    refine ⟨fun i hwi hiN => ?_, fun i hiw => ?_, ?_⟩
    · rw [hlor, Nat.testBit_lor, hmask, Nat.testBit_shiftLeft,
        Nat.testBit_two_pow_sub_one]
      have h1 : i - s.width < s.nwidth - s.width := by omega
      simp [hwi, h1]
    · rw [hlor, Nat.testBit_lor, hmask, Nat.testBit_shiftLeft,
        Nat.testBit_two_pow_sub_one, Nat.testBit_mod_two_pow]
      simp [hiw, Nat.not_le.mpr hiw]
    · have hwle : (2 : Nat) ^ s.width ≤ 2 ^ s.nwidth :=
        Nat.pow_le_pow_right (by norm_num) hw.le
      have hlow : (2 : Nat) ^ (s.nwidth - 1) ≤ v % 2 ^ s.width + (2 ^ s.nwidth - 2 ^ s.width) := by
        have hwn1 : (2 : Nat) ^ s.width ≤ 2 ^ (s.nwidth - 1) :=
          Nat.pow_le_pow_right (by norm_num) (by omega)
        have h2 : (2 : Nat) ^ s.nwidth = 2 ^ (s.nwidth - 1) * 2 := by
          rw [← pow_succ]
          congr 1
          omega
        omega
      rw [toInt, if_neg (by omega)]
      have hsub : ((v % 2 ^ s.width + (2 ^ s.nwidth - 2 ^ s.width) : Nat) : Int) =
          (v % 2 ^ s.width : Nat) + ((2 ^ s.nwidth : Nat) : Int) - ((2 ^ s.width : Nat) : Int) := by
        push_cast [Nat.cast_sub hwle]
        ring
      rw [hsub]
      push_cast
      ring
  · have hse := signExtend_eq s.nwidth s.width v hw1 hw.le hv
    rw [hse, if_neg (by simp [hb])]

/-- Witness for C6: the spec's own example, a 3-bit signed
little-endian field holding raw pattern `0b101`, which decodes to
`-3`. -/
theorem sign_extension_step_witness :
    ((Sig.mk 0 3 ByteOrder.little true 1 0).signed = true ∧
      (Sig.mk 0 3 ByteOrder.little true 1 0).width <
        (Sig.mk 0 3 ByteOrder.little true 1 0).nwidth ∧
      1 ≤ (Sig.mk 0 3 ByteOrder.little true 1 0).width) ∧
    ((Sig.mk 0 3 ByteOrder.little true 1 0).extract_unaligned_le [5] =
      signExtend 8 3 ((Sig.mk 0 3 ByteOrder.little true 1 0).assembleULE [5])) ∧
    toInt 8 (signExtend 8 3 5) = -3 := by
  have h := sign_extension_step (Sig.mk 0 3 ByteOrder.little true 1 0) [5]
    rfl (by decide) (by decide)
  refine ⟨⟨rfl, by decide, by decide⟩, h.1.1, ?_⟩
  have h2 := ((h.2 5 (by decide)).1 (by decide)).2.2
  norm_num at h2
  exact h2

/-! ## Claim C8: aligned/unaligned equivalence for a 16-bit
little-endian signal at start bit 0.  The unaligned algorithm's width
mask `(1 << width) - 1` is modelled at mathematical precision
(`2 ^ width - 1`); at `width = nwidth` the source's fixed-width
constant would overflow its storage type, but `extract_bits` routes
every such signal to the aligned path, so the generator never emits
that constant. -/

/-- C8: for a 16-bit little-endian unsigned signal at start bit 0 and
every byte buffer of the message's length, the aligned extraction and
the generic unaligned little-endian extraction produce the same
value. -/
theorem aligned_unaligned_equiv_16bit_le (m : Msg) (pdu : List Nat)
    (hlen : pdu.length = m.dlc) (hb : ∀ b ∈ pdu, b < 256) :
    (Sig.mk 0 16 ByteOrder.little false 1 0).extract_aligned true pdu =
      (Sig.mk 0 16 ByteOrder.little false 1 0).extract_unaligned_le pdu := by
  have hb0 : pdu.getD 0 0 < 256 := getD_lt_256 hb 0
  have hb1 : pdu.getD 1 0 < 256 := getD_lt_256 hb 1
  have hU : (Sig.mk 0 16 ByteOrder.little false 1 0).extract_unaligned_le pdu =
      (pdu.getD 0 0 &&& (2 ^ 16 - 1)) ||| ((pdu.getD 1 0 <<< 8) % 2 ^ 16) := rfl
  have hA : (Sig.mk 0 16 ByteOrder.little false 1 0).extract_aligned true pdu =
      pdu.getD 0 0 + 2 ^ 8 * pdu.getD 1 0 := rfl
  rw [hU, hA, land_two_pow_sub_one, Nat.mod_eq_of_lt (by omega),
    Nat.shiftLeft_eq, Nat.mod_eq_of_lt (by omega),
    show pdu.getD 1 0 * 2 ^ 8 = 2 ^ 8 * pdu.getD 1 0 from Nat.mul_comm _ _,
    lor_two_pow_mul _ 8 (by omega)]

/-- Witness for C8 at a concrete 2-byte message and buffer. -/
theorem aligned_unaligned_equiv_16bit_le_witness :
    (([0xAB, 0xCD] : List Nat).length = (Msg.mk 2 []).dlc) ∧
    (∀ b ∈ ([0xAB, 0xCD] : List Nat), b < 256) ∧
    (Sig.mk 0 16 ByteOrder.little false 1 0).extract_aligned true [0xAB, 0xCD] =
      (Sig.mk 0 16 ByteOrder.little false 1 0).extract_unaligned_le [0xAB, 0xCD] :=
  ⟨by decide, by decide,
    aligned_unaligned_equiv_16bit_le (Msg.mk 2 []) [0xAB, 0xCD] (by decide) (by decide)⟩

/-! ## Claim C10: in-bounds buffer access under the schema invariant -/


theorem getD_set_ne (l : List Nat) (i j a : Nat) (h : i ≠ j) :
    (l.set i a).getD j 0 = l.getD j 0 := by
  rw [List.getD_eq_getElem?_getD, List.getD_eq_getElem?_getD, List.getElem?_set_ne h]

theorem byteRun_mem_bound {b r i : Nat} (h : i ∈ byteRun b r) : 8 * i < 8 * b + r := by
  induction r using Nat.strong_induction_on generalizing b with
  | _ r ih =>
    rw [byteRun] at h
    split_ifs at h with h0 h8
    · exact absurd h (List.not_mem_nil i)
    · rw [List.mem_singleton] at h
      omega
    · rw [List.mem_cons] at h
      rcases h with h | h
      · omega
      · have := ih (r - 8) (by omega) h
        omega

theorem encULEloop_length (sg : Bool) (N v byte rshift rem : Nat) (pdu : List Nat) :
    (encULEloop sg N v byte rshift rem pdu).length = pdu.length := by
  induction rem using Nat.strong_induction_on generalizing byte rshift pdu with
  | _ rem ih =>
    rw [encULEloop]
    split_ifs with h0 h8
    · rfl
    · rw [List.length_set]
    · rw [ih (rem - 8) (by omega), List.length_set]

theorem encULEloop_getD_not_mem (sg : Bool) (N v byte rshift rem j : Nat)
    (pdu : List Nat) (h : j ∉ byteRun byte rem) :
    (encULEloop sg N v byte rshift rem pdu).getD j 0 = pdu.getD j 0 := by
  induction rem using Nat.strong_induction_on generalizing byte rshift pdu with
  | _ rem ih =>
    rw [byteRun] at h
    rw [encULEloop]
    split_ifs at h ⊢ with h0 h8
    · rfl
    · rw [List.mem_singleton] at h
      rw [getD_set_ne _ _ _ _ (by omega)]
    · rw [List.mem_cons] at h
      push_neg at h
      rw [ih (rem - 8) (by omega) _ _ _ h.2, getD_set_ne _ _ _ _ (by omega)]

theorem encALEloop_length (sg : Bool) (N v byte shift bits : Nat) (pdu : List Nat) :
    (encALEloop sg N v byte shift bits pdu).length = pdu.length := by
  induction bits using Nat.strong_induction_on generalizing byte shift pdu with
  | _ bits ih =>
    rw [encALEloop]
    split_ifs with h0
    · rfl
    · rw [ih (bits - 8) (by omega), List.length_set]

theorem encALEloop_getD_not_mem (sg : Bool) (N v byte shift bits j : Nat)
    (pdu : List Nat) (h : j ∉ byteRun byte bits) :
    (encALEloop sg N v byte shift bits pdu).getD j 0 = pdu.getD j 0 := by
  induction bits using Nat.strong_induction_on generalizing byte shift pdu with
  | _ bits ih =>
    rw [encALEloop]
    by_cases h0 : bits < 8
    · rw [if_pos h0]
    · rw [if_neg h0]
      have hb : byteRun byte bits = byte :: byteRun (byte + 1) (bits - 8) := by
        rw [byteRun, if_neg (by omega), if_neg (by omega)]
      rw [hb, List.mem_cons] at h
      push_neg at h
      rw [ih (bits - 8) (by omega) _ _ _ h.2, getD_set_ne _ _ _ _ (by omega)]

theorem encABEloop_length (sg : Bool) (N v byte shift bits : Nat) (pdu : List Nat) :
    (encABEloop sg N v byte shift bits pdu).length = pdu.length := by
  induction bits using Nat.strong_induction_on generalizing byte shift pdu with
  | _ bits ih =>
    rw [encABEloop]
    by_cases h0 : bits < 8
    · rw [if_pos h0]
    · rw [if_neg h0, ih (bits - 8) (by omega), List.length_set]

theorem encABEloop_getD_not_mem (sg : Bool) (N v byte shift bits j : Nat)
    (pdu : List Nat) (h : j ∉ byteRun byte bits) :
    (encABEloop sg N v byte shift bits pdu).getD j 0 = pdu.getD j 0 := by
  induction bits using Nat.strong_induction_on generalizing byte shift pdu with
  | _ bits ih =>
    rw [encABEloop]
    by_cases h0 : bits < 8
    · rw [if_pos h0]
    · rw [if_neg h0]
      have hb : byteRun byte bits = byte :: byteRun (byte + 1) (bits - 8) := by
        rw [byteRun, if_neg (by omega), if_neg (by omega)]
      rw [hb, List.mem_cons] at h
      push_neg at h
      rw [ih (bits - 8) (by omega) _ _ _ h.2, getD_set_ne _ _ _ _ (by omega)]

theorem nwidth_cases (s : Sig) :
    s.nwidth = 1 ∨ s.nwidth = 8 ∨ s.nwidth = 16 ∨ s.nwidth = 32 ∨ s.nwidth = 64 := by
  rw [Sig.nwidth]
  split_ifs <;> simp

theorem nwidth_one_iff (s : Sig) : s.nwidth = 1 ↔ s.width = 1 := by
  rw [Sig.nwidth]
  split_ifs with h1 h2 h3 h4 <;> simp_all

theorem width_le_nwidth_of_pos (s : Sig) (h : 1 ≤ s.width) (h64 : s.width ≤ 64) :
    s.width ≤ s.nwidth := by
  rw [Sig.nwidth]
  split_ifs <;> omega



theorem alignedIdx_eq_byteRun (s : Sig) (hw : s.width = s.nwidth) (h1 : s.width ≠ 1) :
    s.alignedIdx = byteRun s.low s.nwidth := by
  rcases nwidth_cases s with h | h | h | h | h
  · exact absurd ((nwidth_one_iff s).mp h) h1
  all_goals
    rw [Sig.alignedIdx, hw, h]
    simp [byteRun]

theorem alignedIdx_bound (s : Sig) {dlc : Nat}
    (h : 8 * (s.start / 8) + s.nwidth ≤ 8 * dlc) (hw : s.width = s.nwidth) :
    ∀ i ∈ s.alignedIdx, i < dlc := by
  intro i hi
  rcases nwidth_cases s with hc | hc | hc | hc | hc <;>
    rw [Sig.alignedIdx, hw, hc] at hi <;> rw [hc] at h
  · exact absurd hi (List.not_mem_nil i)
  all_goals
    simp only [List.mem_singleton, List.mem_cons, List.not_mem_nil, or_false] at hi
    rw [Sig.low] at hi
    first
    | (rw [hi]; omega)
    | (rcases hi with hi | hi | hi | hi | hi | hi | hi | hi <;> rw [hi] <;> omega)
    | (rcases hi with hi | hi | hi | hi <;> rw [hi] <;> omega)
    | (rcases hi with hi | hi <;> rw [hi] <;> omega)



/-- C10: for a message whose selected signals all satisfy the schema
invariant (bit width at least 1 and all bits within `8 * DLC` under the
byte order's numbering), every buffer index read by a signal's decoder
and written by its encoder is strictly below the DLC; moreover the
encoder changes no byte outside its write-index list and preserves the
buffer's length, so no out-of-bounds access occurs once the length
check has passed. -/
theorem buffer_access_in_bounds (m : Msg) (s : Sig) (hm : s ∈ m.signals)
    (hall : ∀ t ∈ m.signals, 1 ≤ t.width ∧ t.fits m.dlc) :
    (∀ i ∈ s.decodeIdx, i < m.dlc) ∧
    (∀ i ∈ s.encodeIdx, i < m.dlc) ∧
    (∀ f pdu j, j ∉ s.encodeIdx → (s.encode f pdu).getD j 0 = pdu.getD j 0) ∧
    (∀ f pdu, (s.encode f pdu).length = pdu.length) := by
  obtain ⟨hw0, hfit⟩ := hall s hm
  have hsd := Nat.div_add_mod s.start 8
  have hsm : s.start % 8 < 8 := Nat.mod_lt _ (by norm_num)
  have hLB : (s.isLittle = true ∧ s.start + s.width ≤ 8 * m.dlc) ∨
      (s.isLittle = false ∧ s.bepos + s.width ≤ 8 * m.dlc) := by
    rw [Sig.fits] at hfit
    rcases hb : s.isLittle with _ | _
    · right
      rw [hb] at hfit
      simp only [Bool.false_eq_true, if_false] at hfit
      exact ⟨rfl, hfit⟩
    · left
      rw [hb] at hfit
      simp only [if_true] at hfit
      exact ⟨rfl, hfit⟩
  have hbe : s.bepos = 8 * (s.start / 8) + (7 - s.start % 8) := rfl
  refine ⟨?_, ?_, ?_, ?_⟩
  · -- decode indices in bounds
    intro i hi
    rw [Sig.decodeIdx] at hi
    by_cases hw1 : s.width = 1
    · rw [if_pos hw1, List.mem_singleton] at hi
      rcases hLB with ⟨_, hfl⟩ | ⟨_, hfl⟩ <;> omega
    · rw [if_neg hw1] at hi
      by_cases hal : s.width = s.nwidth ∧ s.bitAligned
      · rw [if_pos hal] at hi
        refine alignedIdx_bound s ?_ hal.1 i hi
        rcases hLB with ⟨hl, hfl⟩ | ⟨hl, hfl⟩
        · have h0 : s.start % 8 = 0 := by
            have := hal.2
            rw [Sig.bitAligned, if_pos hl, Sig.left] at this
            exact this
          omega
        · have h7 : s.start % 8 = 7 := by
            have := hal.2
            rw [Sig.bitAligned, if_neg (by simp [hl]), Sig.left] at this
            exact this
          omega
      · rw [if_neg hal] at hi
        rcases hLB with ⟨hl, hfl⟩ | ⟨hl, hfl⟩
        · rw [if_pos hl, List.mem_map] at hi
          obtain ⟨o, ho, rfl⟩ := hi
          rw [List.mem_range] at ho
          have hhigh : 8 * s.high ≤ s.start + s.width - 1 := by
            have := Nat.div_add_mod (s.start + s.width - 1) 8
            rw [Sig.high]
            omega
          rw [Sig.byteCount] at ho
          rw [Sig.low] at ho ⊢
          have hlowhigh : s.start / 8 ≤ s.high := by
            rw [Sig.high]
            exact Nat.div_le_div_right (by omega)
          omega
        · rw [if_neg (by simp [hl])] at hi
          by_cases hw8 : s.width < 8
          · rw [if_pos hw8, List.mem_singleton] at hi
            rw [hi, Sig.low]
            omega
          · rw [if_neg hw8, List.mem_cons] at hi
            rcases hi with hi | hi
            · rw [hi, Sig.low]
              omega
            · have := byteRun_mem_bound hi
              rw [Sig.low, Sig.left] at this
              omega
  · -- encode indices in bounds
    intro i hi
    rw [Sig.encodeIdx] at hi
    by_cases hw1 : s.width = 1
    · rw [if_pos hw1, List.mem_singleton] at hi
      rcases hLB with ⟨_, hfl⟩ | ⟨_, hfl⟩ <;> omega
    · rw [if_neg hw1] at hi
      rcases hLB with ⟨hl, hfl⟩ | ⟨hl, hfl⟩
      · rw [if_pos hl] at hi
        by_cases hal : s.width = s.nwidth ∧ s.left = 0
        · rw [if_pos hal] at hi
          refine alignedIdx_bound s ?_ hal.1 i hi
          have h0 : s.start % 8 = 0 := hal.2
          omega
        · rw [if_neg hal] at hi
          by_cases hl0 : s.left = 0
          · rw [if_pos hl0] at hi
            have := byteRun_mem_bound hi
            rw [Sig.low] at this
            have h0 : s.start % 8 = 0 := hl0
            omega
          · rw [if_neg hl0] at hi
            by_cases hw8 : s.width < 8
            · rw [if_pos hw8, List.mem_singleton] at hi
              rw [hi, Sig.low]
              omega
            · rw [if_neg hw8, List.mem_cons] at hi
              rcases hi with hi | hi
              · rw [hi, Sig.low]
                omega
              · have := byteRun_mem_bound hi
                rw [Sig.low] at this
                have hl8 : s.left = s.start % 8 := rfl
                omega
      · rw [if_neg (by simp [hl])] at hi
        by_cases hal : s.width = s.nwidth ∧ s.left = 7
        · rw [if_pos hal] at hi
          refine alignedIdx_bound s ?_ hal.1 i hi
          have h7 : s.start % 8 = 7 := hal.2
          omega
        · rw [if_neg hal] at hi
          exact absurd hi (List.not_mem_nil i)
  · -- encode writes only listed indices
    intro f pdu j hj
    rw [Sig.encodeIdx] at hj
    rw [Sig.encode]
    by_cases hw1 : s.width = 1
    · rw [if_pos hw1] at hj ⊢
      rw [List.mem_singleton] at hj
      rcases f with fb | fi | ff
      · rcases fb with _ | _ <;> exact getD_set_ne _ _ _ _ (by omega)
      · rfl
      · rfl
    · rw [if_neg hw1] at hj ⊢
      rcases hLB with ⟨hl, _⟩ | ⟨hl, _⟩
      · rw [if_pos hl] at hj
        rw [hl, if_pos rfl]
        by_cases hal : s.width = s.nwidth ∧ s.left = 0
        · rw [if_pos hal] at hj ⊢
          rw [alignedIdx_eq_byteRun s hal.1 hw1] at hj
          exact encALEloop_getD_not_mem _ _ _ _ _ _ _ _ hj
        · rw [if_neg hal] at hj ⊢
          rw [Sig.encUnalignedLE]
          by_cases hl0 : s.left = 0
          · rw [if_pos hl0] at hj ⊢
            exact encULEloop_getD_not_mem _ _ _ _ _ _ _ _ hj
          · rw [if_neg hl0] at hj ⊢
            by_cases hw8 : s.width < 8
            · rw [if_pos hw8] at hj ⊢
              rw [List.mem_singleton] at hj
              exact getD_set_ne _ _ _ _ (by omega)
            · rw [if_neg hw8] at hj ⊢
              rw [List.mem_cons] at hj
              push_neg at hj
              rw [encULEloop_getD_not_mem _ _ _ _ _ _ _ _ hj.2,
                getD_set_ne _ _ _ _ (by omega)]
      · rw [if_neg (by simp [hl])] at hj
        rw [hl, if_neg (by simp)]
        by_cases hal : s.width = s.nwidth ∧ s.left = 7
        · rw [if_pos hal] at hj ⊢
          rw [alignedIdx_eq_byteRun s hal.1 hw1] at hj
          have hbase : (s.start - 7) / 8 = s.low := by
            have h7 : s.start % 8 = 7 := hal.2
            rw [Sig.low]
            omega
          rw [hbase]
          exact encABEloop_getD_not_mem _ _ _ _ _ _ _ _ hj
        · rw [if_neg hal]
  · -- encode preserves length
    intro f pdu
    rw [Sig.encode]
    by_cases hw1 : s.width = 1
    · rw [if_pos hw1]
      rcases f with fb | fi | ff
      · rcases fb with _ | _ <;> rw [List.length_set]
      · rfl
      · rfl
    · rw [if_neg hw1]
      rcases hb : s.isLittle with _ | _
      · rw [if_neg (by simp)]
        by_cases hal : s.width = s.nwidth ∧ s.left = 7
        · rw [if_pos hal, encABEloop_length]
        · rw [if_neg hal]
      · rw [if_pos rfl]
        by_cases hal : s.width = s.nwidth ∧ s.left = 0
        · rw [if_pos hal, encALEloop_length]
        · rw [if_neg hal, Sig.encUnalignedLE]
          by_cases hl0 : s.left = 0
          · rw [if_pos hl0, encULEloop_length]
          · rw [if_neg hl0]
            by_cases hw8 : s.width < 8
            · rw [if_pos hw8, List.length_set]
            · rw [if_neg hw8, encULEloop_length, List.length_set]


/-- Witness for C10 at a one-signal message (4-bit little-endian signal
crossing a byte boundary in a 2-byte message). -/
theorem buffer_access_in_bounds_witness :
    ((Sig.mk 6 4 ByteOrder.little false 1 0) ∈
      (Msg.mk 2 [Sig.mk 6 4 ByteOrder.little false 1 0]).signals) ∧
    (∀ t ∈ (Msg.mk 2 [Sig.mk 6 4 ByteOrder.little false 1 0]).signals,
      1 ≤ t.width ∧ t.fits (Msg.mk 2 [Sig.mk 6 4 ByteOrder.little false 1 0]).dlc) ∧
    (∀ i ∈ (Sig.mk 6 4 ByteOrder.little false 1 0).decodeIdx,
      i < (Msg.mk 2 [Sig.mk 6 4 ByteOrder.little false 1 0]).dlc) ∧
    (∀ i ∈ (Sig.mk 6 4 ByteOrder.little false 1 0).encodeIdx,
      i < (Msg.mk 2 [Sig.mk 6 4 ByteOrder.little false 1 0]).dlc) := by
  have h := buffer_access_in_bounds (Msg.mk 2 [Sig.mk 6 4 ByteOrder.little false 1 0])
    (Sig.mk 6 4 ByteOrder.little false 1 0) (by decide) (by decide)
  exact ⟨by decide, by decide, h.1, h.2.1⟩

/-! ## Helper lemmas for the round-trip analysis (claim C1) -/

theorem rshr_unsigned (N v k : Nat) : rshr false N v k = v >>> k := by
  rw [rshr, if_neg (by simp)]

theorem rshr_of_lt (sg : Bool) (N v k : Nat) (h : v < 2 ^ (N - 1)) :
    rshr sg N v k = v >>> k := by
  rw [rshr, if_neg (by omega)]

theorem rshr_fill_testBit (N k i : Nat) (hk : k ≤ N) (hi : i < N - k) :
    (2 ^ N - 2 ^ (N - k)).testBit i = false := by
  rw [← two_pow_mul_two_pow_sub_one N (N - k) (by omega),
    show (2 : Nat) ^ (N - k) * (2 ^ (N - (N - k)) - 1) = (2 ^ (N - (N - k)) - 1) <<< (N - k) by
      rw [Nat.shiftLeft_eq]; ring,
    Nat.testBit_shiftLeft]
  simp [Nat.not_le.mpr hi]

theorem rshr_mod_two_pow (sg : Bool) (N v k m : Nat) (h : k + m ≤ N) :
    rshr sg N v k % 2 ^ m = (v >>> k) % 2 ^ m := by
  rw [rshr]
  split_ifs with hs
  · rw [← land_two_pow_sub_one, ← land_two_pow_sub_one, Nat.and_comm _ (2 ^ m - 1),
      Nat.and_or_distrib_left, Nat.and_comm (2 ^ m - 1) (v >>> k)]
    have hz : (2 ^ m - 1) &&& (2 ^ N - 2 ^ (N - k)) = 0 := by
      refine Nat.eq_of_testBit_eq fun i => ?_
      rw [Nat.testBit_land, Nat.testBit_two_pow_sub_one, Nat.zero_testBit]
      rcases lt_or_le i m with him | him
      · rw [rshr_fill_testBit N k i (by omega) (by omega)]
        simp
      · simp [Nat.not_lt.mpr him]
    rw [Nat.and_comm, hz, Nat.or_zero]
  · rfl

theorem rshr_mod_256 (sg : Bool) (N v k : Nat) (h : k + 8 ≤ N) :
    rshr sg N v k % 256 = (v >>> k) % 256 :=
  rshr_mod_two_pow sg N v k 8 h

theorem toInt_emod_toNat (N u : Nat) (h : u < 2 ^ N) :
    ((toInt N u).emod (2 ^ N)).toNat = u := by
  have hbridge : ∀ a b : Int, a.emod b = a % b := fun a b => rfl
  have hu : (u : Int) < 2 ^ N := by exact_mod_cast h
  rw [toInt]
  split_ifs with h1
  · rw [hbridge, Int.emod_eq_of_lt (Int.ofNat_nonneg u) hu, Int.toNat_natCast]
  · have hshift : ((u : Int) - 2 ^ N) % 2 ^ N = (u : Int) % 2 ^ N := by
      conv_lhs => rw [show (u : Int) - 2 ^ N = u + 2 ^ N * (-1) by ring]
      rw [Int.add_mul_emod_self_left]
    rw [hbridge, hshift, Int.emod_eq_of_lt (Int.ofNat_nonneg u) hu, Int.toNat_natCast]



theorem length_bufOf (d x : Nat) : (bufOf d x).length = d := by
  induction d generalizing x with
  | zero => rfl
  | succ d ih =>
    rw [bufOf, List.length_cons, ih]

theorem replicate_zero_eq_bufOf (d : Nat) : List.replicate d 0 = bufOf d 0 := by
  induction d with
  | zero => rfl
  | succ d ih =>
    rw [List.replicate_succ, bufOf, ih]
    rfl

theorem getD_bufOf {d j : Nat} (x : Nat) (hj : j < d) :
    (bufOf d x).getD j 0 = (x >>> (8 * j)) % 256 := by
  induction d generalizing j x with
  | zero => omega
  | succ d ih =>
    rw [bufOf]
    rcases j with _ | j
    · rfl
    · rw [List.getD_cons_succ, ih (x >>> 8) (by omega),
        show 8 * (j + 1) = 8 + 8 * j by ring, Nat.shiftRight_add]

theorem getD_bufOf_ge {d j : Nat} (x : Nat) (hj : d ≤ j) :
    (bufOf d x).getD j 0 = 0 := by
  rw [List.getD_eq_default]
  rw [length_bufOf]
  omega

theorem set_bufOf {d j c : Nat} (x : Nat) (hj : j < d)
    (hx : (x >>> (8 * j)) % 256 = 0) (hc : c < 256) :
    (bufOf d x).set j c = bufOf d (x + c * 2 ^ (8 * j)) := by
  induction d generalizing j x with
  | zero => omega
  | succ d ih =>
    rcases j with _ | j
    · rw [bufOf, List.set_cons_zero, bufOf]
      rw [Nat.mul_zero, Nat.shiftRight_zero] at hx
      rw [Nat.mul_zero, pow_zero, Nat.mul_one]
      have hd := Nat.div_add_mod x 256
      have h1 : (x + c) % 256 = c := by omega
      have h2 : (x + c) >>> 8 = x >>> 8 := by
        rw [Nat.shiftRight_eq_div_pow, Nat.shiftRight_eq_div_pow]
        norm_num
        omega
      rw [h1, h2]
    · rw [bufOf, List.set_cons_succ, bufOf]
      have he : 2 ^ (8 * (j + 1)) = 2 ^ (8 * j) * 256 := by
        rw [show 8 * (j + 1) = 8 * j + 8 by ring, pow_add]
        norm_num
      have h1 : (x + c * 2 ^ (8 * (j + 1))) % 256 = x % 256 := by
        rw [he, show c * (2 ^ (8 * j) * 256) = c * 2 ^ (8 * j) * 256 by ring,
          Nat.add_mul_mod_self_right]
      have h2 : (x + c * 2 ^ (8 * (j + 1))) >>> 8 = x >>> 8 + c * 2 ^ (8 * j) := by
        rw [Nat.shiftRight_eq_div_pow, Nat.shiftRight_eq_div_pow]
        norm_num
        rw [he, show c * (2 ^ (8 * j) * 256) = c * 2 ^ (8 * j) * 256 by ring,
          Nat.add_mul_div_right _ _ (show 0 < 256 by norm_num)]
      rw [h1, h2, ih (x >>> 8) (by omega) (by
        rw [← Nat.shiftRight_add]
        rw [show 8 + 8 * j = 8 * (j + 1) by ring]
        exact hx)]



theorem mod_split_pow (x a b : Nat) :
    x % 2 ^ a + 2 ^ a * ((x >>> a) % 2 ^ b) = x % 2 ^ (a + b) := by
  rw [pow_add, Nat.mod_mul, Nat.shiftRight_eq_div_pow]

theorem land_mod_256 (x m : Nat) (hm : m ≤ 8) :
    (x % 256) &&& (2 ^ m - 1) = x &&& (2 ^ m - 1) := by
  rw [land_two_pow_sub_one, land_two_pow_sub_one,
    Nat.mod_mod_of_dvd x (by
      have : (256 : Nat) = 2 ^ 8 := by norm_num
      rw [this]
      exact pow_dvd_pow 2 hm)]

theorem shiftRight_eq_zero_of_lt {x k : Nat} (h : x < 2 ^ k) : x >>> k = 0 := by
  rw [Nat.shiftRight_eq_div_pow]
  exact Nat.div_eq_of_lt h

theorem encULEloop_bufOf (sg : Bool) (N v d : Nat) :
    ∀ rem byte rshift X, X < 2 ^ (8 * byte) → 8 * byte + rem ≤ 8 * d →
      rshift + rem ≤ N →
      encULEloop sg N v byte rshift rem (bufOf d X) =
        bufOf d (X + ((v >>> rshift) % 2 ^ rem) * 2 ^ (8 * byte)) := by
  intro rem
  induction rem using Nat.strong_induction_on with
  | _ rem ih =>
    intro byte rshift X hX hbd hrN
    rw [encULEloop]
    split_ifs with h0 h8
    · rw [h0, pow_zero, Nat.mod_one, Nat.zero_mul, Nat.add_zero]
    · have hbyte : byte < d := by omega
      have hget : (bufOf d X).getD byte 0 = 0 := by
        rw [getD_bufOf X hbyte, shiftRight_eq_zero_of_lt hX]
      show (bufOf d X).set byte
          ((bufOf d X).getD byte 0 &&& (255 ^^^ ((1 <<< rem) - 1)) |||
            rshr sg N v rshift % 256 &&& ((1 <<< rem) - 1)) =
          bufOf d (X + v >>> rshift % 2 ^ rem * 2 ^ (8 * byte))
      have hval : (bufOf d X).getD byte 0 &&& (255 ^^^ ((1 <<< rem) - 1)) |||
          rshr sg N v rshift % 256 &&& ((1 <<< rem) - 1) =
          (v >>> rshift) % 2 ^ rem := by
        rw [hget, Nat.zero_and, Nat.zero_or, Nat.one_shiftLeft,
          land_mod_256 _ rem (by omega), land_two_pow_sub_one,
          rshr_mod_two_pow sg N v rshift rem (by omega)]
      have hclt : (v >>> rshift) % 2 ^ rem < 256 := by
        have h1 : (v >>> rshift) % 2 ^ rem < 2 ^ rem :=
          Nat.mod_lt _ (Nat.pos_pow_of_pos rem (by norm_num))
        have h2 : (2 : Nat) ^ rem ≤ 2 ^ 8 := Nat.pow_le_pow_right (by norm_num) (by omega)
        norm_num at h2
        omega
      rw [hval, set_bufOf X hbyte (by rw [shiftRight_eq_zero_of_lt hX]) hclt]
    · have hbyte : byte < d := by omega
      have hval : rshr sg N v rshift &&& 255 = (v >>> rshift) % 256 := by
        rw [show (255 : Nat) = 2 ^ 8 - 1 by norm_num, land_two_pow_sub_one]
        exact rshr_mod_256 sg N v rshift (by omega)
      have hc : (v >>> rshift) % 256 < 256 := Nat.mod_lt _ (by norm_num)
      rw [hval, set_bufOf X hbyte (by rw [shiftRight_eq_zero_of_lt hX]) hc]
      have hX2 : X + (v >>> rshift) % 256 * 2 ^ (8 * byte) < 2 ^ (8 * (byte + 1)) := by
        have h2 : 2 ^ (8 * (byte + 1)) = 2 ^ (8 * byte) * 256 := by
          rw [show 8 * (byte + 1) = 8 * byte + 8 by ring, pow_add]
          norm_num
        have := Nat.pos_pow_of_pos (8 * byte) (show 0 < 2 by norm_num)
        nlinarith [hc, hX]
      rw [ih (rem - 8) (by omega) (byte + 1) (rshift + 8) _ hX2 (by omega) (by omega)]
      congr 1
      have hsplit : (v >>> rshift) % 256 + 256 * ((v >>> (rshift + 8)) % 2 ^ (rem - 8)) =
          (v >>> rshift) % 2 ^ rem := by
        have h1 := mod_split_pow (v >>> rshift) 8 (rem - 8)
        rw [← Nat.shiftRight_add, show 8 + (rem - 8) = rem by omega] at h1
        norm_num at h1
        exact h1
      have h2 : 2 ^ (8 * (byte + 1)) = 256 * 2 ^ (8 * byte) := by
        rw [show 8 * (byte + 1) = 8 + 8 * byte by ring, pow_add]
        norm_num
      calc X + (v >>> rshift) % 256 * 2 ^ (8 * byte) +
            (v >>> (rshift + 8)) % 2 ^ (rem - 8) * 2 ^ (8 * (byte + 1)) =
          X + ((v >>> rshift) % 256 + 256 * ((v >>> (rshift + 8)) % 2 ^ (rem - 8))) *
            2 ^ (8 * byte) := by
            rw [h2]
            ring
      _ = X + (v >>> rshift) % 2 ^ rem * 2 ^ (8 * byte) := by rw [hsplit]

theorem encALEloop_bufOf (sg : Bool) (N v d : Nat) :
    ∀ bits byte shift X, bits % 8 = 0 → X < 2 ^ (8 * byte) → 8 * byte + bits ≤ 8 * d →
      shift + bits ≤ N →
      encALEloop sg N v byte shift bits (bufOf d X) =
        bufOf d (X + ((v >>> shift) % 2 ^ bits) * 2 ^ (8 * byte)) := by
  intro bits
  induction bits using Nat.strong_induction_on with
  | _ bits ih =>
    intro byte shift X hm8 hX hbd hrN
    rw [encALEloop]
    split_ifs with h0
    · have hb0 : bits = 0 := by omega
      rw [hb0, pow_zero, Nat.mod_one, Nat.zero_mul, Nat.add_zero]
    · have hbyte : byte < d := by omega
      have hval : rshr sg N v shift % 256 = (v >>> shift) % 256 :=
        rshr_mod_256 sg N v shift (by omega)
      have hc : (v >>> shift) % 256 < 256 := Nat.mod_lt _ (by norm_num)
      rw [hval, set_bufOf X hbyte (by rw [shiftRight_eq_zero_of_lt hX]) hc]
      have hX2 : X + (v >>> shift) % 256 * 2 ^ (8 * byte) < 2 ^ (8 * (byte + 1)) := by
        have h2 : 2 ^ (8 * (byte + 1)) = 2 ^ (8 * byte) * 256 := by
          rw [show 8 * (byte + 1) = 8 * byte + 8 by ring, pow_add]
          norm_num
        have := Nat.pos_pow_of_pos (8 * byte) (show 0 < 2 by norm_num)
        nlinarith [hc, hX]
      rw [ih (bits - 8) (by omega) (byte + 1) (shift + 8) _ (by omega) hX2 (by omega) (by omega)]
      congr 1
      have hsplit : (v >>> shift) % 256 + 256 * ((v >>> (shift + 8)) % 2 ^ (bits - 8)) =
          (v >>> shift) % 2 ^ bits := by
        have h1 := mod_split_pow (v >>> shift) 8 (bits - 8)
        rw [← Nat.shiftRight_add, show 8 + (bits - 8) = bits by omega] at h1
        norm_num at h1
        exact h1
      have h2 : 2 ^ (8 * (byte + 1)) = 256 * 2 ^ (8 * byte) := by
        rw [show 8 * (byte + 1) = 8 + 8 * byte by ring, pow_add]
        norm_num
      calc X + (v >>> shift) % 256 * 2 ^ (8 * byte) +
            (v >>> (shift + 8)) % 2 ^ (bits - 8) * 2 ^ (8 * (byte + 1)) =
          X + ((v >>> shift) % 256 + 256 * ((v >>> (shift + 8)) % 2 ^ (bits - 8))) *
            2 ^ (8 * byte) := by
            rw [h2]
            ring
      _ = X + (v >>> shift) % 2 ^ bits * 2 ^ (8 * byte) := by rw [hsplit]

end DbcData

namespace DbcData

theorem land_shiftLeft (a b k : Nat) : (a <<< k) &&& (b <<< k) = (a &&& b) <<< k := by
  refine Nat.eq_of_testBit_eq fun i => ?_
  rw [Nat.testBit_land, Nat.testBit_shiftLeft, Nat.testBit_shiftLeft,
    Nat.testBit_shiftLeft, Nat.testBit_land]
  rcases le_or_lt k i with h | h
  · simp [h]
  · simp [Nat.not_le.mpr h]

theorem mod_two_pow_shiftRight (x m k : Nat) (h : k ≤ m) :
    (x % 2 ^ m) >>> k = (x >>> k) % 2 ^ (m - k) := by
  rw [Nat.shiftRight_eq_div_pow, Nat.shiftRight_eq_div_pow,
    show (2 : Nat) ^ m = 2 ^ k * 2 ^ (m - k) by rw [← pow_add]; congr 1; omega,
    Nat.mod_mul_right_div_self]

theorem getD_bufOf_byte (d x j left : Nat) (hj : j < d) (hleft : left < 8) :
    ((bufOf d x).getD j 0) >>> left = (x >>> (8 * j + left)) % 2 ^ (8 - left) := by
  rw [getD_bufOf x hj, show (256 : Nat) = 2 ^ 8 by norm_num,
    mod_two_pow_shiftRight _ 8 left (by omega), ← Nat.shiftRight_add]

end DbcData

namespace DbcData

theorem mod_mod_two_pow (a m n : Nat) : a % 2 ^ m % 2 ^ n = a % 2 ^ min m n := by
  rcases le_or_lt n m with h | h
  · rw [min_eq_right h]
    exact Nat.mod_mod_of_dvd a (pow_dvd_pow 2 h)
  · rw [min_eq_left h.le, Nat.mod_eq_of_lt
      (lt_of_lt_of_le (Nat.mod_lt _ (Nat.pos_pow_of_pos m (by norm_num)))
        (Nat.pow_le_pow_right (by norm_num) h.le))]

theorem lor_mul_two_pow {a : Nat} (b k : Nat) (ha : a < 2 ^ k) :
    a ||| b * 2 ^ k = a + 2 ^ k * b := by
  rw [Nat.mul_comm b, lor_two_pow_mul b k ha]

theorem uleAcc_bufOf (s : Sig) (d x : Nat)
    (hw2 : 2 ≤ s.width) (hwN : s.width ≤ s.nwidth)
    (hhigh : s.high < d)
    (hsgn : s.signed = true → 8 < s.left + s.width → 16 ≤ s.nwidth) :
    ∀ o, o ≤ s.byteCount →
      s.uleAcc (bufOf d x) o =
        (x >>> s.start) % 2 ^ (min s.width (8 * (o + 1) - s.left)) := by
  have hdm1 := Nat.div_add_mod s.start 8
  have hml : s.start % 8 < 8 := Nat.mod_lt _ (by norm_num)
  have hN8 : 8 ≤ s.nwidth := by
    rw [Sig.nwidth]
    split_ifs <;> omega
  have hlowhigh : s.low ≤ s.high := by
    rw [Sig.low, Sig.high]
    exact Nat.div_le_div_right (by omega)
  have hleft : s.left = s.start % 8 := rfl
  have hlow8 : 8 * s.low = s.start - s.left := by
    rw [Sig.low, hleft]
    omega
  have hl8 : s.left < 8 := by
    rw [hleft]
    omega
  have hcount : s.byteCount = s.high - s.low := rfl
  have hhl : 8 * s.high ≤ s.start + s.width - 1 ∧ s.start + s.width - 1 < 8 * s.high + 8 := by
    rw [Sig.high]
    have := Nat.div_add_mod (s.start + s.width - 1) 8
    have := Nat.mod_lt (s.start + s.width - 1) (show 0 < 8 by norm_num)
    omega
  have hcb : 8 * s.byteCount ≤ s.left + s.width - 1 ∧
      s.left + s.width - 1 < 8 * s.byteCount + 8 := by
    rw [hcount]
    have h1 : 8 * (s.high - s.low) = 8 * s.high - 8 * s.low := by omega
    rw [h1, hlow8, hleft]
    omega
  have hrt : s.rightBits = (s.start + s.width) % 8 := rfl
  have hrb8 : s.rightBits < 8 := by
    rw [hrt]
    exact Nat.mod_lt _ (by norm_num)
  have hrel : (s.rightBits ≠ 0 → s.left + s.width = 8 * s.byteCount + s.rightBits) ∧
      (s.rightBits = 0 → s.left + s.width = 8 * s.byteCount + 8) := by
    have hd3 := Nat.div_add_mod (s.start + s.width) 8
    have hd2 := Nat.div_add_mod (s.start + s.width - 1) 8
    have hh : s.high = (s.start + s.width - 1) / 8 := rfl
    rw [hcount, hh, hrt, hleft, Sig.low]
    omega
  intro o
  induction o with
  | zero =>
    intro _
    rw [show s.uleAcc (bufOf d x) 0 = s.uleFirst (bufOf d x) from rfl]
    simp only [Sig.uleFirst]
    by_cases hl0 : s.left = 0
    · rw [if_neg (by omega)]
      rw [Nat.one_shiftLeft, land_two_pow_sub_one, getD_bufOf x (by omega),
        show (256 : Nat) = 2 ^ 8 by norm_num, mod_mod_two_pow, Nat.min_comm,
        show 8 * s.low = s.start by omega]
      conv_lhs => rw [show min s.width 8 = min s.width (8 * (0 + 1) - s.left) by omega]
    · rw [if_pos hl0]
      by_cases hc0 : s.byteCount = 0
      · rw [if_pos hc0]
        have hlw8 : s.left + s.width ≤ 8 := by omega
        rw [Nat.one_shiftLeft, land_two_pow_sub_one,
          rshr_mod_two_pow s.signed s.nwidth _ s.left s.width (by omega),
          getD_bufOf_byte d x s.low s.left (by omega) hl8,
          show 8 * s.low + s.left = s.start by omega,
          mod_mod_two_pow, Nat.min_comm]
      · rw [if_neg hc0]
        have hcross : 8 < s.left + s.width := by omega
        have hstep : rshr s.signed s.nwidth ((bufOf d x).getD s.low 0) s.left =
            ((bufOf d x).getD s.low 0) >>> s.left := by
          rcases hsg : s.signed with _ | _
          · rw [rshr_unsigned]
          · refine rshr_of_lt _ _ _ _ ?_
            have h16 := hsgn hsg hcross
            have h1 : (bufOf d x).getD s.low 0 < 256 := by
              rw [getD_bufOf x (by omega)]
              exact Nat.mod_lt _ (by norm_num)
            have h2 : (256 : Nat) ≤ 2 ^ (s.nwidth - 1) := by
              calc (256 : Nat) = 2 ^ 8 := by norm_num
              _ ≤ 2 ^ (s.nwidth - 1) := Nat.pow_le_pow_right (by norm_num) (by omega)
            exact lt_of_lt_of_le h1 h2
        rw [hstep, getD_bufOf_byte d x s.low s.left (by omega) hl8,
          show 8 * s.low + s.left = s.start by omega]
        conv_lhs => rw [show 8 - s.left = min s.width (8 * (0 + 1) - s.left) by omega]
  | succ o ih =>
    intro ho
    have hacc := ih (by omega)
    have hminS : min s.width (8 * (o + 1) - s.left) = 8 * (o + 1) - s.left := by omega
    rw [show s.uleAcc (bufOf d x) (o + 1) =
        s.uleAcc (bufOf d x) o ||| s.uleContrib (bufOf d x) (o + 1) from rfl,
      hacc, hminS]
    simp only [Sig.uleContrib, show (o + 1) * 8 = 8 * (o + 1) from Nat.mul_comm _ _]
    set S := 8 * (o + 1) - s.left with hS
    have hbyte : s.low + (o + 1) < d := by omega
    have hb : (bufOf d x).getD (s.low + (o + 1)) 0 = (x >>> (s.start + S)) % 2 ^ 8 := by
      rw [getD_bufOf x hbyte, show (256 : Nat) = 2 ^ 8 by norm_num]
      congr 2
      omega
    have hacclt : (x >>> s.start) % 2 ^ S < 2 ^ S :=
      Nat.mod_lt _ (Nat.pos_pow_of_pos S (by norm_num))
    by_cases hlast : o + 1 = s.byteCount ∧ s.rightBits ≠ 0
    · rw [if_pos hlast]
      have hwid : S + s.rightBits = s.width := by
        have := hrel.1 hlast.2
        omega
      rw [Nat.one_shiftLeft, land_two_pow_sub_one, hb, mod_mod_two_pow,
        min_eq_right hrb8.le]
      have hcontlt : ((x >>> (s.start + S)) % 2 ^ s.rightBits) <<< S < 2 ^ s.nwidth := by
        rw [Nat.shiftLeft_eq]
        have h1 : (x >>> (s.start + S)) % 2 ^ s.rightBits < 2 ^ s.rightBits :=
          Nat.mod_lt _ (Nat.pos_pow_of_pos _ (by norm_num))
        have h2 : (2 : Nat) ^ s.rightBits * 2 ^ S ≤ 2 ^ s.nwidth := by
          rw [← pow_add]
          exact Nat.pow_le_pow_right (by norm_num) (by omega)
        exact lt_of_lt_of_le
          (mul_lt_mul_of_pos_right h1 (Nat.pos_pow_of_pos S (by norm_num))) h2
      rw [Nat.mod_eq_of_lt hcontlt, Nat.shiftLeft_eq, lor_mul_two_pow _ S hacclt]
      have hsplit := mod_split_pow (x >>> s.start) S s.rightBits
      rw [← Nat.shiftRight_add] at hsplit
      rw [hsplit, show S + s.rightBits = min s.width (8 * (o + 1 + 1) - s.left) by omega]
    · rw [if_neg hlast]
      have hS8w : S + 8 ≤ s.width := by
        rcases Nat.lt_or_ge (o + 1) s.byteCount with hol | hol
        · omega
        · have hoc : o + 1 = s.byteCount := by omega
          have hr0 : s.rightBits = 0 := by tauto
          have := hrel.2 hr0
          omega
      rw [hb]
      have hcontlt : ((x >>> (s.start + S)) % 2 ^ 8) <<< S < 2 ^ s.nwidth := by
        rw [Nat.shiftLeft_eq]
        have h1 : (x >>> (s.start + S)) % 2 ^ 8 < 2 ^ 8 := Nat.mod_lt _ (by norm_num)
        have h2 : (2 : Nat) ^ 8 * 2 ^ S ≤ 2 ^ s.nwidth := by
          rw [← pow_add]
          exact Nat.pow_le_pow_right (by norm_num) (by omega)
        exact lt_of_lt_of_le
          (mul_lt_mul_of_pos_right h1 (Nat.pos_pow_of_pos S (by norm_num))) h2
      rw [Nat.mod_eq_of_lt hcontlt, Nat.shiftLeft_eq, lor_mul_two_pow _ S hacclt]
      have hsplit := mod_split_pow (x >>> s.start) S 8
      rw [← Nat.shiftRight_add] at hsplit
      rw [hsplit, show S + 8 = min s.width (8 * (o + 1 + 1) - s.left) by omega]

end DbcData

namespace DbcData

theorem assembleULE_bufOf (s : Sig) (d x : Nat)
    (hw2 : 2 ≤ s.width) (hwN : s.width ≤ s.nwidth)
    (hfit : s.start + s.width ≤ 8 * d)
    (hsgn : s.signed = true → 8 < s.left + s.width → 16 ≤ s.nwidth) :
    s.assembleULE (bufOf d x) = (x >>> s.start) % 2 ^ s.width := by
  have hdm1 := Nat.div_add_mod s.start 8
  have hml : s.start % 8 < 8 := Nat.mod_lt _ (by norm_num)
  have hhl : 8 * s.high ≤ s.start + s.width - 1 ∧ s.start + s.width - 1 < 8 * s.high + 8 := by
    rw [Sig.high]
    have := Nat.div_add_mod (s.start + s.width - 1) 8
    have := Nat.mod_lt (s.start + s.width - 1) (show 0 < 8 by norm_num)
    omega
  have hhigh : s.high < d := by omega
  have hleft : s.left = s.start % 8 := rfl
  have hlow8 : 8 * s.low = s.start - s.left := by
    rw [Sig.low, hleft]
    omega
  have hlowhigh : s.low ≤ s.high := by
    rw [Sig.low, Sig.high]
    exact Nat.div_le_div_right (by omega)
  have hcb : 8 * s.byteCount ≤ s.left + s.width - 1 ∧
      s.left + s.width - 1 < 8 * s.byteCount + 8 := by
    rw [show s.byteCount = s.high - s.low from rfl]
    have h1 : 8 * (s.high - s.low) = 8 * s.high - 8 * s.low := by omega
    rw [h1, hlow8, hleft]
    omega
  rw [Sig.assembleULE, uleAcc_bufOf s d x hw2 hwN hhigh hsgn s.byteCount le_rfl,
    show min s.width (8 * (s.byteCount + 1) - s.left) = s.width by omega]

end DbcData

namespace DbcData

theorem first_byte_val (s : Sig) (v m : Nat) (hm1 : 1 ≤ m) (hm8 : s.left + m ≤ 8)
    (hN8 : 8 ≤ s.nwidth) :
    ((v <<< s.left) % 2 ^ s.nwidth) % 256 &&& ((((1 <<< m) - 1) <<< s.left) % 256) =
      (v % 2 ^ m) <<< s.left := by
  have hl8 : s.left < 8 := by omega
  have hdv : (256 : Nat) ∣ 2 ^ s.nwidth := by
    rw [show (256 : Nat) = 2 ^ 8 by norm_num]
    exact pow_dvd_pow 2 hN8
  have hmasklt : ((1 <<< m) - 1) <<< s.left < 256 := by
    rw [Nat.one_shiftLeft, Nat.shiftLeft_eq]
    calc (2 ^ m - 1) * 2 ^ s.left < 2 ^ m * 2 ^ s.left := by
          have hp := Nat.pos_pow_of_pos s.left (show 0 < 2 by norm_num)
          have hq := Nat.pos_pow_of_pos m (show 0 < 2 by norm_num)
          exact mul_lt_mul_of_pos_right (by omega) hp
    _ = 2 ^ (m + s.left) := by rw [← pow_add]
    _ ≤ 2 ^ 8 := Nat.pow_le_pow_right (by norm_num) (by omega)
    _ = 256 := by norm_num
  have hsplit8 : (2 : Nat) ^ 8 = 2 ^ (8 - s.left) * 2 ^ s.left := by
    rw [← pow_add]
    congr 1
    omega
  rw [Nat.mod_mod_of_dvd _ hdv, Nat.mod_eq_of_lt hmasklt,
    Nat.shiftLeft_eq, Nat.shiftLeft_eq,
    show (256 : Nat) = 2 ^ 8 by norm_num, hsplit8,
    Nat.mul_mod_mul_right, ← Nat.shiftLeft_eq, ← Nat.shiftLeft_eq,
    land_shiftLeft, Nat.one_shiftLeft, land_two_pow_sub_one, mod_mod_two_pow,
    min_eq_right (by omega)]

end DbcData

namespace DbcData

theorem getD_bufOf_zero (d j : Nat) (hj : j < d) : (bufOf d 0).getD j 0 = 0 := by
  rw [getD_bufOf 0 hj, Nat.zero_shiftRight]

theorem shiftLeft_lt_256 (a k m : Nat) (ha : a < 2 ^ m) (hk : m + k ≤ 8) :
    a <<< k < 256 := by
  rw [Nat.shiftLeft_eq]
  have h2 : a * 2 ^ k < 2 ^ m * 2 ^ k :=
    mul_lt_mul_of_pos_right ha (Nat.pos_pow_of_pos _ (by norm_num))
  have h3 : (2 : Nat) ^ m * 2 ^ k = 2 ^ (m + k) := by rw [← pow_add]
  have h4 : (2 : Nat) ^ (m + k) ≤ 2 ^ 8 := Nat.pow_le_pow_right (by norm_num) hk
  norm_num at h4
  omega

theorem encUnalignedLE_bufOf (s : Sig) (d v : Nat)
    (hw2 : 2 ≤ s.width) (hwN : s.width ≤ s.nwidth)
    (hfit : s.start + s.width ≤ 8 * d)
    (hgood : ¬(8 < s.left + s.width ∧ s.width < 8)) :
    s.encUnalignedLE v (bufOf d 0) = bufOf d ((v % 2 ^ s.width) <<< s.start) := by
  have hdm1 := Nat.div_add_mod s.start 8
  have hml : s.start % 8 < 8 := Nat.mod_lt _ (by norm_num)
  have hleft : s.left = s.start % 8 := rfl
  have hlow8 : 8 * s.low = s.start - s.left := by
    rw [Sig.low, hleft]
    omega
  have hl8 : s.left < 8 := by omega
  have hN8 : 8 ≤ s.nwidth := by
    rw [Sig.nwidth]
    split_ifs <;> omega
  have hlow : s.low < d := by
    rw [Sig.low]
    omega
  rw [Sig.encUnalignedLE]
  by_cases hl0 : s.left = 0
  · rw [if_pos hl0,
      encULEloop_bufOf s.signed s.nwidth v d s.width s.low 0 0
        (Nat.pos_pow_of_pos _ (by norm_num)) (by omega) (by omega),
      Nat.shiftRight_zero, Nat.zero_add, Nat.shiftLeft_eq,
      show s.start = 8 * s.low by omega]
  · rw [if_neg hl0]
    by_cases hw8 : s.width < 8
    · have hnc : s.left + s.width ≤ 8 := by
        by_contra hc
        exact hgood ⟨by omega, hw8⟩
      rw [if_pos hw8]
      show (bufOf d 0).set s.low
          ((bufOf d 0).getD s.low 0 &&& (255 ^^^ ((((1 <<< s.width) - 1) <<< s.left) % 256)) |||
            ((v <<< s.left) % 2 ^ s.nwidth) % 256 &&& ((((1 <<< s.width) - 1) <<< s.left) % 256)) =
          bufOf d ((v % 2 ^ s.width) <<< s.start)
      rw [getD_bufOf_zero d s.low hlow, Nat.zero_and, Nat.zero_or,
        first_byte_val s v s.width (by omega) hnc hN8]
      have hclt : (v % 2 ^ s.width) <<< s.left < 256 :=
        shiftLeft_lt_256 _ s.left s.width
          (Nat.mod_lt _ (Nat.pos_pow_of_pos _ (by norm_num))) (by omega)
      rw [set_bufOf 0 hlow (by rw [Nat.zero_shiftRight]) hclt, Nat.zero_add,
        Nat.shiftLeft_eq, Nat.shiftLeft_eq, Nat.mul_assoc,
        show (2 : Nat) ^ s.left * 2 ^ (8 * s.low) = 2 ^ s.start by
          rw [← pow_add]; congr 1; omega]
    · rw [if_neg hw8]
      show encULEloop s.signed s.nwidth v (s.low + 1) (8 - s.left) (s.width - (8 - s.left))
          ((bufOf d 0).set s.low
            ((bufOf d 0).getD s.low 0 &&&
                (255 ^^^ ((((1 <<< (8 - s.left)) - 1) <<< s.left) % 256)) |||
              ((v <<< s.left) % 2 ^ s.nwidth) % 256 &&&
                ((((1 <<< (8 - s.left)) - 1) <<< s.left) % 256))) =
          bufOf d ((v % 2 ^ s.width) <<< s.start)
      rw [getD_bufOf_zero d s.low hlow, Nat.zero_and, Nat.zero_or,
        first_byte_val s v (8 - s.left) (by omega) (by omega) hN8]
      have hclt : (v % 2 ^ (8 - s.left)) <<< s.left < 256 :=
        shiftLeft_lt_256 _ s.left (8 - s.left)
          (Nat.mod_lt _ (Nat.pos_pow_of_pos _ (by norm_num))) (by omega)
      rw [set_bufOf 0 hlow (by rw [Nat.zero_shiftRight]) hclt, Nat.zero_add]
      have hXlt : (v % 2 ^ (8 - s.left)) <<< s.left * 2 ^ (8 * s.low) <
          2 ^ (8 * (s.low + 1)) := by
        have h1 : (v % 2 ^ (8 - s.left)) <<< s.left * 2 ^ (8 * s.low) <
            256 * 2 ^ (8 * s.low) :=
          mul_lt_mul_of_pos_right hclt (Nat.pos_pow_of_pos _ (by norm_num))
        have h2 : (256 : Nat) * 2 ^ (8 * s.low) = 2 ^ (8 * (s.low + 1)) := by
          rw [show (256 : Nat) = 2 ^ 8 by norm_num, ← pow_add]
          congr 1
          omega
        omega
      rw [encULEloop_bufOf s.signed s.nwidth v d (s.width - (8 - s.left)) (s.low + 1)
        (8 - s.left) _ hXlt (by omega) (by omega)]
      congr 1
      have hsplit := mod_split_pow v (8 - s.left) (s.width - (8 - s.left))
      rw [show 8 - s.left + (s.width - (8 - s.left)) = s.width by omega] at hsplit
      have e1 : (2 : Nat) ^ (8 * (s.low + 1)) = 2 ^ (8 - s.left) * (2 ^ s.left * 2 ^ (8 * s.low)) := by
        rw [← pow_add, ← pow_add]
        congr 1
        omega
      have e2 : (2 : Nat) ^ s.start = 2 ^ s.left * 2 ^ (8 * s.low) := by
        rw [← pow_add]
        congr 1
        omega
      calc (v % 2 ^ (8 - s.left)) <<< s.left * 2 ^ (8 * s.low) +
            (v >>> (8 - s.left)) % 2 ^ (s.width - (8 - s.left)) * 2 ^ (8 * (s.low + 1)) =
          (v % 2 ^ (8 - s.left) +
            2 ^ (8 - s.left) * ((v >>> (8 - s.left)) % 2 ^ (s.width - (8 - s.left)))) *
            (2 ^ s.left * 2 ^ (8 * s.low)) := by
            rw [Nat.shiftLeft_eq, e1]
            ring
      _ = (v % 2 ^ s.width) * (2 ^ s.left * 2 ^ (8 * s.low)) := by rw [hsplit]
      _ = (v % 2 ^ s.width) <<< s.start := by rw [Nat.shiftLeft_eq, e2]

end DbcData

namespace DbcData

theorem nwidth_mod8 (s : Sig) (hw1 : s.width ≠ 1) (hal : s.width = s.nwidth) :
    s.nwidth % 8 = 0 := by
  rcases nwidth_cases s with h | h | h | h | h
  · exact absurd (hal.trans h) hw1
  all_goals rw [h]

theorem encALE_bufOf (s : Sig) (d v : Nat) (hw1 : s.width ≠ 1) (hal : s.width = s.nwidth)
    (hl0 : s.left = 0) (hfit : s.start + s.width ≤ 8 * d) (hv : v < 2 ^ s.width) :
    encALEloop s.signed s.nwidth v s.low 0 s.nwidth (bufOf d 0) = bufOf d (v <<< s.start) := by
  have hdm1 := Nat.div_add_mod s.start 8
  have hleft : s.left = s.start % 8 := rfl
  have hstart : s.start = 8 * s.low := by
    rw [Sig.low]
    omega
  rw [encALEloop_bufOf s.signed s.nwidth v d s.nwidth s.low 0 0
    (nwidth_mod8 s hw1 hal) (Nat.pos_pow_of_pos _ (by norm_num))
    (by omega) (by omega), Nat.shiftRight_zero, Nat.zero_add,
    Nat.mod_eq_of_lt (hal ▸ hv), Nat.shiftLeft_eq, hstart]

theorem extract_aligned_le_bufOf (s : Sig) (d x : Nat) (hal : s.width = s.nwidth)
    (hw1 : s.width ≠ 1) (hfit : 8 * s.low + s.width ≤ 8 * d) :
    s.extract_aligned true (bufOf d x) = (x >>> (8 * s.low)) % 2 ^ s.width := by
  have hb : ∀ i, s.low + i < d →
      (bufOf d x).getD (s.low + i) 0 = ((x >>> (8 * s.low)) >>> (8 * i)) % 256 := by
    intro i hi
    rw [getD_bufOf x hi, ← Nat.shiftRight_add]
    congr 2
    ring
  have hy8 : ∀ i : Nat, (x >>> (8 * s.low)) >>> (8 * i) = x >>> (8 * s.low) / 2 ^ (8 * i) := by
    intro i
    rw [Nat.shiftRight_eq_div_pow]
  rcases nwidth_cases s with h | h | h | h | h
  · exact absurd (hal.trans h) hw1
  · have hw : s.width = 8 := hal.trans h
    simp only [Sig.extract_aligned, hw, if_true]
    rw [hb 0 (by omega), hy8 0]
    norm_num
  · have hw : s.width = 16 := hal.trans h
    simp only [Sig.extract_aligned, hw, if_true]
    rw [hb 0 (by omega), hb 1 (by omega), hy8 0, hy8 1]
    norm_num
    omega
  · have hw : s.width = 32 := hal.trans h
    simp only [Sig.extract_aligned, hw, if_true]
    rw [hb 0 (by omega), hb 1 (by omega), hb 2 (by omega), hb 3 (by omega),
      hy8 0, hy8 1, hy8 2, hy8 3]
    norm_num
    omega
  · have hw : s.width = 64 := hal.trans h
    simp only [Sig.extract_aligned, hw, if_true]
    rw [hb 0 (by omega), hb 1 (by omega), hb 2 (by omega), hb 3 (by omega),
      hb 4 (by omega), hb 5 (by omega), hb 6 (by omega), hb 7 (by omega),
      hy8 0, hy8 1, hy8 2, hy8 3, hy8 4, hy8 5, hy8 6, hy8 7]
    norm_num
    omega

end DbcData

namespace DbcData

theorem beChunk_lt (v bits : Nat) : beChunk v bits < 2 ^ bits := by
  induction bits using Nat.strong_induction_on with
  | _ bits ih =>
    rw [beChunk]
    split_ifs with h
    · exact Nat.pos_pow_of_pos _ (by norm_num)
    · have h1 : (v >>> (bits - 8)) % 256 < 256 := Nat.mod_lt _ (by norm_num)
      have h2 := ih (bits - 8) (by omega)
      have h3 : (2 : Nat) ^ bits = 256 * 2 ^ (bits - 8) := by
        rw [show (256 : Nat) = 2 ^ 8 by norm_num, ← pow_add]
        congr 1
        omega
      omega

theorem encABEloop_bufOf (sg : Bool) (N v d : Nat) :
    ∀ bits byte X, bits % 8 = 0 → bits ≤ N → X < 2 ^ (8 * byte) →
      8 * byte + bits ≤ 8 * d →
      encABEloop sg N v byte (bits - 8) bits (bufOf d X) =
        bufOf d (X + beChunk v bits * 2 ^ (8 * byte)) := by
  intro bits
  induction bits using Nat.strong_induction_on with
  | _ bits ih =>
    intro byte X hm8 hbN hX hbd
    rw [encABEloop]
    by_cases h0 : bits < 8
    · rw [if_pos h0]
      have hb0 : bits = 0 := by omega
      rw [hb0, beChunk, if_pos (by norm_num), Nat.zero_mul, Nat.add_zero]
    · rw [if_neg h0]
      have hbyte : byte < d := by omega
      have hval : rshr sg N v (bits - 8) % 256 = (v >>> (bits - 8)) % 256 :=
        rshr_mod_256 sg N v (bits - 8) (by omega)
      have hc : (v >>> (bits - 8)) % 256 < 256 := Nat.mod_lt _ (by norm_num)
      rw [hval, set_bufOf X hbyte (by rw [shiftRight_eq_zero_of_lt hX]) hc]
      have hX2 : X + (v >>> (bits - 8)) % 256 * 2 ^ (8 * byte) < 2 ^ (8 * (byte + 1)) := by
        have h2 : 2 ^ (8 * (byte + 1)) = 2 ^ (8 * byte) * 256 := by
          rw [show 8 * (byte + 1) = 8 * byte + 8 by ring, pow_add]
          norm_num
        have := Nat.pos_pow_of_pos (8 * byte) (show 0 < 2 by norm_num)
        nlinarith [hc, hX]
      have hshift : (if 8 ≤ bits - 8 then bits - 8 - 8 else bits - 8) = bits - 8 - 8 := by
        split_ifs with hs
        · rfl
        · omega
      rw [hshift]
      rw [ih (bits - 8) (by omega) (byte + 1) _ (by omega) (by omega) hX2 (by omega)]
      congr 1
      conv_rhs => rw [beChunk, if_neg (by omega)]
      have h2 : 2 ^ (8 * (byte + 1)) = 256 * 2 ^ (8 * byte) := by
        rw [show 8 * (byte + 1) = 8 + 8 * byte by ring, pow_add]
        norm_num
      rw [h2]
      ring

end DbcData

namespace DbcData

theorem beChunk_mod_256 (v k : Nat) (hk : 8 ≤ k) :
    beChunk v k % 256 = v / 2 ^ (k - 8) % 256 := by
  rw [beChunk, if_neg (by omega), Nat.shiftRight_eq_div_pow]
  generalize v / 2 ^ (k - 8) = a
  omega

theorem beChunk_div_256 (v k : Nat) (hk : 8 ≤ k) :
    beChunk v k / 256 = beChunk v (k - 8) := by
  rw [beChunk, if_neg (by omega), Nat.shiftRight_eq_div_pow]
  generalize v / 2 ^ (k - 8) = a
  generalize beChunk v (k - 8) = b
  omega

theorem beChunk_byte (v : Nat) : ∀ j k, 8 * (j + 1) ≤ k →
    beChunk v k / 2 ^ (8 * j) % 256 = v / 2 ^ (k - 8 * (j + 1)) % 256 := by
  intro j
  induction j with
  | zero =>
    intro k hk
    simp only [Nat.mul_zero, pow_zero, Nat.div_one]
    rw [beChunk_mod_256 v k (by omega)]
  | succ i ih =>
    intro k hk
    have hpow : (2 : Nat) ^ (8 * (i + 1)) = 256 * 2 ^ (8 * i) := by
      rw [show 8 * (i + 1) = 8 + 8 * i by ring, pow_add]
      norm_num
    rw [hpow, ← Nat.div_div_eq_div_mul, beChunk_div_256 v k (by omega),
      ih (k - 8) (by omega)]
    have he : k - 8 - 8 * (i + 1) = k - 8 * (i + 1 + 1) := by omega
    rw [he]

theorem extract_aligned_be_chunk (s : Sig) (d v : Nat) (hal : s.width = s.nwidth)
    (hw1 : s.width ≠ 1) (hfit : 8 * s.low + s.width ≤ 8 * d) (hv : v < 2 ^ s.width) :
    s.extract_aligned false (bufOf d (beChunk v s.width * 2 ^ (8 * s.low))) = v := by
  have hb : ∀ i, s.low + i < d →
      (bufOf d (beChunk v s.width * 2 ^ (8 * s.low))).getD (s.low + i) 0 =
        beChunk v s.width / 2 ^ (8 * i) % 256 := by
    intro i hi
    rw [getD_bufOf _ hi, show 8 * (s.low + i) = 8 * s.low + 8 * i by ring,
      Nat.shiftRight_add, Nat.shiftRight_eq_div_pow, Nat.shiftRight_eq_div_pow,
      Nat.mul_div_cancel _ (Nat.pos_pow_of_pos _ (by norm_num))]
  rcases nwidth_cases s with h | h | h | h | h
  · exact absurd (hal.trans h) hw1
  · have hw : s.width = 8 := hal.trans h
    rw [hw] at hv hb ⊢
    simp only [Sig.extract_aligned, hw]
    rw [hb 0 (by omega), beChunk_byte v 0 8 (by norm_num)]
    norm_num
    omega
  · have hw : s.width = 16 := hal.trans h
    rw [hw] at hv hb ⊢
    simp only [Sig.extract_aligned, hw]
    rw [if_neg (by simp), hb 0 (by omega), hb 1 (by omega),
      beChunk_byte v 0 16 (by norm_num), beChunk_byte v 1 16 (by norm_num)]
    norm_num
    omega
  · have hw : s.width = 32 := hal.trans h
    rw [hw] at hv hb ⊢
    simp only [Sig.extract_aligned, hw]
    rw [if_neg (by simp), hb 0 (by omega), hb 1 (by omega), hb 2 (by omega), hb 3 (by omega),
      beChunk_byte v 0 32 (by norm_num), beChunk_byte v 1 32 (by norm_num),
      beChunk_byte v 2 32 (by norm_num), beChunk_byte v 3 32 (by norm_num)]
    norm_num
    omega
  · have hw : s.width = 64 := hal.trans h
    rw [hw] at hv hb ⊢
    simp only [Sig.extract_aligned, hw]
    rw [if_neg (by simp), hb 0 (by omega), hb 1 (by omega), hb 2 (by omega), hb 3 (by omega),
      hb 4 (by omega), hb 5 (by omega), hb 6 (by omega), hb 7 (by omega),
      beChunk_byte v 0 64 (by norm_num), beChunk_byte v 1 64 (by norm_num),
      beChunk_byte v 2 64 (by norm_num), beChunk_byte v 3 64 (by norm_num),
      beChunk_byte v 4 64 (by norm_num), beChunk_byte v 5 64 (by norm_num),
      beChunk_byte v 6 64 (by norm_num), beChunk_byte v 7 64 (by norm_num)]
    norm_num
    omega

end DbcData

namespace DbcData

theorem sextIf_lt (s : Sig) (p : Nat) (hw1 : 1 ≤ s.width) (hwN : s.width ≤ s.nwidth)
    (hp : p < 2 ^ s.nwidth) : s.sextIf p < 2 ^ s.nwidth := by
  rw [Sig.sextIf]
  split_ifs with h
  · rw [signExtend_eq s.nwidth s.width p hw1 hwN hp]
    split_ifs with hb
    · have h1 : p % 2 ^ s.width < 2 ^ s.width :=
        Nat.mod_lt _ (Nat.pos_pow_of_pos _ (by norm_num))
      have h2 : (2 : Nat) ^ s.width ≤ 2 ^ s.nwidth :=
        Nat.pow_le_pow_right (by norm_num) hwN
      omega
    · exact hp
  · exact hp

theorem sextIf_mod (s : Sig) (p : Nat) (hw1 : 1 ≤ s.width) (hwN : s.width ≤ s.nwidth)
    (hp : p < 2 ^ s.width) : s.sextIf p % 2 ^ s.width = p := by
  rw [Sig.sextIf]
  split_ifs with h
  · exact signExtend_mod_self s.nwidth s.width p hw1 hwN hp
  · exact Nat.mod_eq_of_lt hp

theorem sextIf_id_of_unsigned (s : Sig) (p : Nat) (h : s.signed = false) :
    s.sextIf p = p := by
  rw [Sig.sextIf, if_neg (by simp [h])]

theorem sextIf_id_of_full (s : Sig) (p : Nat) (h : s.width = s.nwidth) :
    s.sextIf p = p := by
  rw [Sig.sextIf, if_neg (by omega)]

theorem encVal_int (s : Sig) (n : Int) (hnf : s.is_float = false) :
    s.encVal (FieldVal.i n) = (n.emod (2 ^ s.nwidth)).toNat := by
  have h : s.encVal (FieldVal.i n) =
      if s.is_float = true then 0 else (n.emod (2 ^ s.nwidth)).toNat := rfl
  rw [h, if_neg (by rw [hnf]; simp)]

theorem encVal_fieldOfRaw (s : Sig) (p : Nat) (hnf : s.is_float = false)
    (hw1 : 1 ≤ s.width) (hwN : s.width ≤ s.nwidth) (hp : p < 2 ^ s.width) :
    s.encVal (s.fieldOfRaw p) = s.sextIf p := by
  have hpN : p < 2 ^ s.nwidth :=
    lt_of_lt_of_le hp (Nat.pow_le_pow_right (by norm_num) hwN)
  rcases hsg : s.signed with _ | _
  · have h1 : s.fieldOfRaw p = FieldVal.i (p : Int) := by
      rw [Sig.fieldOfRaw, if_neg (by rw [hsg]; simp)]
    rw [h1, encVal_int s _ hnf]
    have hbridge : ((p : Int)).emod (2 ^ s.nwidth) = (p : Int) % 2 ^ s.nwidth := rfl
    rw [hbridge, Int.emod_eq_of_lt (Int.ofNat_nonneg p) (by exact_mod_cast hpN),
      Int.toNat_natCast, sextIf_id_of_unsigned s p hsg]
  · have h1 : s.fieldOfRaw p = FieldVal.i (toInt s.nwidth (s.sextIf p)) := by
      rw [Sig.fieldOfRaw, if_pos hsg]
    rw [h1, encVal_int s _ hnf]
    exact toInt_emod_toNat s.nwidth (s.sextIf p) (sextIf_lt s p hw1 hwN hpN)

theorem nwidth16_of_9 (s : Sig) (h : 9 ≤ s.width) : 16 ≤ s.nwidth := by
  rw [Sig.nwidth]
  split_ifs <;> omega

theorem shiftLeft_shiftRight_cancel (p k : Nat) : (p <<< k) >>> k = p := by
  rw [Nat.shiftLeft_eq, Nat.shiftRight_eq_div_pow,
    Nat.mul_div_cancel _ (Nat.pos_pow_of_pos _ (by norm_num))]

theorem encode_multibit (s : Sig) (f : FieldVal) (pdu : List Nat) (hw1 : s.width ≠ 1) :
    s.encode f pdu =
      if s.isLittle = true then
        if s.width = s.nwidth ∧ s.left = 0 then
          encALEloop s.signed s.nwidth (s.encVal f) s.low 0 s.nwidth pdu
        else s.encUnalignedLE (s.encVal f) pdu
      else if s.width = s.nwidth ∧ s.left = 7 then
        encABEloop s.signed s.nwidth (s.encVal f) ((s.start - 7) / 8) (s.nwidth - 8) s.nwidth pdu
      else pdu := by
  rw [Sig.encode, if_neg hw1]

theorem decodeVal_int (s : Sig) (pdu : List Nat) (hw1 : s.width ≠ 1)
    (hnf : s.is_float = false) :
    s.decodeVal pdu = FieldVal.i
      (if s.signed = true then toInt s.nwidth (s.extract_bits pdu)
        else (s.extract_bits pdu : Int)) := by
  rw [Sig.decodeVal, if_neg hw1]
  show (if s.is_float = true then FieldVal.f (s.castF (s.extract_bits pdu) * s.scale + s.offset)
    else FieldVal.i (if s.signed = true then toInt s.nwidth (s.extract_bits pdu)
      else (s.extract_bits pdu : Int))) = _
  rw [hnf]
  simp

end DbcData

namespace DbcData

/-- C1 (amended): round trip holds for every non-scaled integer signal
of width between 2 and 64 that fits the message buffer, whose generated
decoder builds (no `iN::MIN - 1` first-byte mask constant, see
`Sig.uleMaskBuilds`), and that is either (a) little-endian and not a
byte-crossing signal of width < 8 nor a byte-crossing signed signal of
width 8 (those lose high bits on encode or corrupt on decode), or
(b) an aligned big-endian signal: encoding the raw pattern into an
otherwise-zeroed buffer of length DLC returns true, and decoding that
buffer returns true and yields the same field value back. -/
theorem round_trip_good_signals (s : Sig) (dlc p : Nat)
    (hsc : s.scale = 1)
    (hw2 : 2 ≤ s.width) (hw64 : s.width ≤ 64)
    (hfit : s.fits dlc)
    (hgood : (s.byteOrder = ByteOrder.little ∧
        ¬(8 < s.start % 8 + s.width ∧ (s.width < 8 ∨ (s.width = 8 ∧ s.signed = true))) ∧
        s.uleMaskBuilds) ∨
      (s.byteOrder = ByteOrder.big ∧ s.width = s.nwidth ∧ s.start % 8 = 7))
    (hp : p < 2 ^ s.width) :
    (Msg.encode (Msg.mk dlc [s]) [s.fieldOfRaw p] (List.replicate dlc 0)).1 = true ∧
    Msg.decode (Msg.mk dlc [s]) [FieldVal.i 0]
      (Msg.encode (Msg.mk dlc [s]) [s.fieldOfRaw p] (List.replicate dlc 0)).2 =
      (true, [s.fieldOfRaw p]) := by
  have hwN : s.width ≤ s.nwidth := width_le_nwidth_of_pos s (by omega) hw64
  have hw1 : s.width ≠ 1 := by omega
  have hnf : s.is_float = false := by
    rw [Sig.is_float, hsc]
    simp
  have hv := encVal_fieldOfRaw s p hnf (by omega) hwN hp
  have hdm1 := Nat.div_add_mod s.start 8
  have hml : s.start % 8 < 8 := Nat.mod_lt _ (by norm_num)
  have hleft : s.left = s.start % 8 := rfl
  have henc : Msg.encode (Msg.mk dlc [s]) [s.fieldOfRaw p] (List.replicate dlc 0) =
      (true, s.encode (s.fieldOfRaw p) (List.replicate dlc 0)) := by
    rw [Msg.encode, if_neg (by simp)]
    rfl
  rw [henc]
  refine ⟨rfl, ?_⟩
  rcases hgood with ⟨hbo, hshape, -⟩ | ⟨hbo, hal, h7⟩
  · -- little-endian
    have hl : s.isLittle = true := by rw [Sig.isLittle, hbo]
    have hfitle : s.start + s.width ≤ 8 * dlc := by
      rw [Sig.fits, if_pos hl] at hfit
      exact hfit
    have hbuf : s.encode (s.fieldOfRaw p) (List.replicate dlc 0) =
        bufOf dlc (p <<< s.start) := by
      rw [encode_multibit s _ _ hw1, hl, if_pos rfl, hv, replicate_zero_eq_bufOf]
      by_cases hA : s.width = s.nwidth ∧ s.left = 0
      · rw [if_pos hA, sextIf_id_of_full s p hA.1,
          encALE_bufOf s dlc p hw1 hA.1 hA.2 hfitle hp]
      · rw [if_neg hA,
          encUnalignedLE_bufOf s dlc (s.sextIf p) hw2 hwN hfitle
            (by rw [hleft]; intro hc; exact hshape ⟨hc.1, Or.inl hc.2⟩),
          sextIf_mod s p (by omega) hwN hp]
    rw [hbuf, Msg.decode, if_neg (by rw [length_bufOf]; simp)]
    have hdv : s.decodeVal (bufOf dlc (p <<< s.start)) = s.fieldOfRaw p := by
      rw [decodeVal_int s _ hw1 hnf]
      have hx : s.extract_bits (bufOf dlc (p <<< s.start)) = s.sextIf p := by
        rw [Sig.extract_bits]
        by_cases hA : s.width = s.nwidth ∧ s.bitAligned
        · have hA0 : s.left = 0 := by
            have := hA.2
            rw [Sig.bitAligned, if_pos hl] at this
            exact this
          rw [if_pos hA, hl, extract_aligned_le_bufOf s dlc _ hA.1 hw1
              (by have hlow : s.low = s.start / 8 := rfl
                  rw [hleft] at hA0
                  omega),
            show 8 * s.low = s.start by rw [Sig.low]; omega,
            shiftLeft_shiftRight_cancel, Nat.mod_eq_of_lt hp,
            sextIf_id_of_full s p hA.1]
        · rw [if_neg hA, if_pos hl, Sig.extract_unaligned_le,
            assembleULE_bufOf s dlc _ hw2 hwN hfitle
              (fun hsg hcr => nwidth16_of_9 s (by
                rcases Nat.lt_or_ge s.width 9 with h9 | h9
                · exfalso
                  rw [hleft] at hcr
                  rcases Nat.lt_or_ge s.width 8 with h8 | h8
                  · exact hshape ⟨hcr, Or.inl h8⟩
                  · exact hshape ⟨hcr, Or.inr ⟨by omega, hsg⟩⟩
                · exact h9)),
            shiftLeft_shiftRight_cancel, Nat.mod_eq_of_lt hp]
      rw [hx, Sig.fieldOfRaw]
      rcases hsg : s.signed with _ | _
      · rw [sextIf_id_of_unsigned s p hsg]
        simp
      · simp
    rw [show (Msg.mk dlc [s]).signals = [s] from rfl, List.map_cons, List.map_nil, hdv]
  · -- big-endian aligned
    have hl : s.isLittle = false := by rw [Sig.isLittle, hbo]
    have hbase : (s.start - 7) / 8 = s.low := by
      rw [Sig.low]
      omega
    have hfitbe : 8 * s.low + s.width ≤ 8 * dlc := by
      rw [Sig.fits, if_neg (by rw [hl]; simp)] at hfit
      rw [Sig.bepos] at hfit
      rw [Sig.low]
      omega
    have hbuf : s.encode (s.fieldOfRaw p) (List.replicate dlc 0) =
        bufOf dlc (beChunk p s.width * 2 ^ (8 * s.low)) := by
      rw [encode_multibit s _ _ hw1, hl, if_neg (by simp), if_pos ⟨hal, h7⟩, hv,
        sextIf_id_of_full s p hal, replicate_zero_eq_bufOf, hbase, hal,
        encABEloop_bufOf s.signed s.nwidth p dlc s.nwidth s.low 0
          (nwidth_mod8 s hw1 hal) le_rfl (Nat.pos_pow_of_pos _ (by norm_num))
          (by omega), Nat.zero_add]
    rw [hbuf, Msg.decode, if_neg (by rw [length_bufOf]; simp)]
    have hdv : s.decodeVal (bufOf dlc (beChunk p s.width * 2 ^ (8 * s.low))) =
        s.fieldOfRaw p := by
      rw [decodeVal_int s _ hw1 hnf]
      have hx : s.extract_bits (bufOf dlc (beChunk p s.width * 2 ^ (8 * s.low))) = p := by
        rw [Sig.extract_bits, if_pos ⟨hal, by rw [Sig.bitAligned, if_neg (by rw [hl]; simp), hleft]; exact h7⟩,
          hl, extract_aligned_be_chunk s dlc p hal hw1 hfitbe hp]
      rw [hx, Sig.fieldOfRaw, sextIf_id_of_full s p hal]
      rcases hsg : s.signed with _ | _
      · simp
      · simp
    rw [show (Msg.mk dlc [s]).signals = [s] from rfl, List.map_cons, List.map_nil, hdv]
end DbcData

namespace DbcData

/-- C1 counterexample: the claim as stated fails for the 4-bit
little-endian unsigned signal at start bit 6 (scale 1, offset 0) in a
2-byte message: encoding raw value 15 into a zeroed buffer and decoding
it back yields 3, because the generated little-endian encoder computes
the first byte's contribution in `u8` and the shift by 6 discards the
two bits that belong to the second byte. -/
theorem round_trip_counterexample :
    let s : Sig := Sig.mk 6 4 ByteOrder.little false 1 0
    let m : Msg := Msg.mk 2 [s]
    Msg.decode m [FieldVal.i 0] (Msg.encode m [FieldVal.i 15] (List.replicate 2 0)).2 =
      (true, [FieldVal.i 3]) ∧ (3 : Int) ≠ 15 := by
  constructor
  · decide
  · decide

/-- Witness for C1 (amended): the aligned 8-bit little-endian unsigned
signal at start bit 0 round trips raw value 200 through a 1-byte
message. -/
theorem round_trip_good_signals_witness :
    let s : Sig := Sig.mk 0 8 ByteOrder.little false 1 0
    (Msg.encode (Msg.mk 1 [s]) [s.fieldOfRaw 200] (List.replicate 1 0)).1 = true ∧
    Msg.decode (Msg.mk 1 [s]) [FieldVal.i 0]
      (Msg.encode (Msg.mk 1 [s]) [s.fieldOfRaw 200] (List.replicate 1 0)).2 =
      (true, [(Sig.mk 0 8 ByteOrder.little false 1 0).fieldOfRaw 200]) :=
  round_trip_good_signals (Sig.mk 0 8 ByteOrder.little false 1 0) 1 200
    rfl (by norm_num) (by norm_num) (by decide)
    (Or.inl ⟨rfl, by decide, by decide⟩) (by norm_num)

end DbcData
